import Mathlib

/-!
A shallow embedding of the tisch schema validator (src/tisch.js, the version
whose `wrappedValidator` sits at lines 384-413) in Lean 4.

Values are modelled as the JSON-like tagged variant that the validator
dispatches on at runtime (string / number / boolean / null / array / plain
object).  Numbers are modelled as integers; none of the matching logic
performs arithmetic beyond equality and counting.

A matcher is a function from a candidate value and the current diagnostic
log to either a thrown runtime error (`Except.error`) or a boolean verdict
together with the updated log.  The JavaScript code mutates a shared
`errors` array by pushing strings; here the log is threaded explicitly and
a push is an append.  Each push site is represented by a `Diag` constructor
carrying the dynamic data interpolated into the message (the candidate
value, keys, counts); the static schema text that `util.inspect` would also
interpolate is formatting and is not carried.
-/

inductive Value where
  | vnull
  | vbool (b : Bool)
  | vnum (n : Int)
  | vstr (s : String)
  | varr (elems : List Value)
  | vobj (entries : List (String × Value))

/-- Primitive schema leaves: the values `validatorImpl` sends to
`literalValidator` (typeof string/number/boolean, or null). -/
inductive Prim where
  | pnull
  | pbool (b : Bool)
  | pnum (n : Int)
  | pstr (s : String)
deriving DecidableEq

/-- The five builtin constructor functions recognised by name in
`validatorImpl` (tisch.js:416-418). -/
inductive TypeTag where
  | tNumber
  | tBoolean
  | tObject
  | tArray
  | tString
deriving DecidableEq

/-- An `etc(min, max)` occurrence descriptor.  The JavaScript object stores
possibly-undefined `min`/`max` and every use site destructures it with
defaults `{min = 0, max = Infinity}`; here the defaults are already
resolved: `max = none` is Infinity. -/
structure Quant where
  min : Nat
  max : Option Nat

/-- One diagnostic log entry per `errors.push` site of tisch.js. -/
inductive Diag where
  /-- tisch.js:468 — expected value of type t but got v. -/
  | typeMismatch (t : TypeTag) (v : Value)
  /-- tisch.js:478 — expected literal but got v. -/
  | literalMismatch (expected : Prim) (v : Value)
  /-- tisch.js:493 — expected an array but received v. -/
  | notAnArray (v : Value)
  /-- tisch.js:527/536/548 — "...occurred in array pattern". -/
  | inArrayPattern
  /-- tisch.js:531 — wrong number of array elements. -/
  | wrongArrayLength (expected got : Nat) (v : Value)
  /-- tisch.js:561 — trailing-element count outside the etc bounds. -/
  | etcBounds (min : Nat) (max : Option Nat) (len : Nat) (rest : List Value)
  /-- tisch.js:567 — not every trailing element matched. -/
  | trailingMismatch (rest : List Value)
  /-- tisch.js:581 — value did not match any of the "or" patterns. -/
  | orNoMatch (v : Value)
  /-- tisch.js:601 — wildcard object: candidate has n properties instead of
  exactly one. -/
  | wildcardNotOne (count : Nat) (v : Value)
  /-- tisch.js:609 — wildcard object: property count outside bounds. -/
  | wildcardBounds (min : Nat) (max : Option Nat) (count : Nat)
  /-- tisch.js:616 — "...occurred in wildcard object pattern". -/
  | inWildcardPattern
  /-- tisch.js:648 — expected an object literal but received v. -/
  | notAnObject (v : Value)
  /-- tisch.js:655 — missing required field. -/
  | missingField (key : String) (v : Value)
  /-- tisch.js:656 — the list of required fields. -/
  | requiredFieldsAre (keys : List String)
  /-- tisch.js:660 — "...occurred at required field". -/
  | atRequiredField (key : String)
  /-- tisch.js:675 — "...occurred at optional field". -/
  | atOptionalField (key : String)
  /-- tisch.js:693 — leftover-field count outside bounds. -/
  | extraFields (count min : Nat) (max : Option Nat)
      (leftovers : List (String × Value))

abbrev Log := List Diag

/-- The outcome of running one matcher: a thrown runtime error, or a
verdict plus the updated diagnostic log. -/
abbrev MResult := Except String (Bool × Log)

/-- A compiled matcher: tisch.js validators are functions from a candidate
value to a boolean that push diagnostics onto a shared array; the array is
threaded here as explicit state. -/
abbrev Matcher := Value → Log → MResult

/-- `getProto(value) === proto` dispatch of `typeValidator`
(tisch.js:460-471): the candidate's runtime category equals the tag's. -/
def typeMatches : TypeTag → Value → Bool
  | .tNumber, .vnum _ => true
  | .tBoolean, .vbool _ => true
  | .tString, .vstr _ => true
  | .tArray, .varr _ => true
  | .tObject, .vobj _ => true
  | _, _ => false

/-- Strict equality `value === expected` for the primitive literals handled
by `literalValidator` (tisch.js:473-481). -/
def primEq : Prim → Value → Bool
  | .pnull, .vnull => true
  | .pbool b, .vbool c => b == c
  | .pnum n, .vnum m => n == m
  | .pstr s, .vstr t => s == t
  | _, _ => false

/-- `isObject` (tisch.js:367-370): true exactly for plain object literals. -/
def isObjectV : Value → Bool
  | .vobj _ => true
  | _ => false

/-- `len > max` is a failure; with `max = none` (Infinity) every count is
admissible. -/
def maxOk : Option Nat → Nat → Bool
  | none, _ => true
  | some hi, n => n ≤ hi

/-- JavaScript property assignment into a plain-object dictionary: replace
the value in place when the key exists (keeping its position), otherwise
append. -/
def jsInsert {α : Type} : List (String × α) → String → α → List (String × α)
  | [], k, a => [(k, a)]
  | (k1, a1) :: rest, k, a =>
    if k1 = k then (k1, a) :: rest else (k1, a1) :: jsInsert rest k a

/-- `Object.keys(value).length` as used by `wildcardObjectValidator`
(tisch.js:598).  There is no object check first: `Object.keys` coerces
numbers and booleans to objects with no own keys, exposes the indices of
strings and arrays, and throws a TypeError on null. -/
def jsKeysCount : Value → Except String Nat
  | .vnull => .error "TypeError: Cannot convert undefined or null to object"
  | .vbool _ => .ok 0
  | .vnum _ => .ok 0
  | .vstr s => .ok s.length
  | .varr xs => .ok xs.length
  | .vobj oe => .ok oe.length

/-- `Object.values(value)` as used by `wildcardObjectValidator`
(tisch.js:615). -/
def jsValues : Value → List Value
  | .vnull => []
  | .vbool _ => []
  | .vnum _ => []
  | .vstr s => s.data.map (fun c => .vstr (String.mk [c]))
  | .varr xs => xs
  | .vobj oe => oe.map Prod.snd

/-- `typeValidator` (tisch.js:460-471). -/
def typeValidator (t : TypeTag) : Matcher := fun v log =>
  if typeMatches t v then .ok (true, log)
  else .ok (false, log ++ [Diag.typeMismatch t v])

/-- `literalValidator` (tisch.js:473-481). -/
def literalValidator (p : Prim) : Matcher := fun v log =>
  if primEq p v then .ok (true, log)
  else .ok (false, log ++ [Diag.literalMismatch p v])

/-- `validators.every((validate, i) => validate(value[i]))`
(tisch.js:534): run each (matcher, element) pair in order, stopping at the
first failure. -/
def runPairs : List (Matcher × Value) → Log → MResult
  | [], log => .ok (true, log)
  | (m, x) :: rest, log =>
    match m x log with
    | .error e => .error e
    | .ok (false, log2) => .ok (false, log2)
    | .ok (true, log2) => runPairs rest log2

/-- `xs.every(m)` with a single matcher (tisch.js:565, 615): run the
matcher on each element in order, stopping at the first failure. -/
def runEvery (m : Matcher) : List Value → Log → MResult
  | [], log => .ok (true, log)
  | x :: rest, log =>
    match m x log with
    | .error e => .error e
    | .ok (false, log2) => .ok (false, log2)
    | .ok (true, log2) => runEvery m rest log2

/-- `validators.some(validate => validate(value))` (tisch.js:579): try each
matcher in order on the same value, stopping at the first success. -/
def runSome : List Matcher → Value → Log → MResult
  | [], _, log => .ok (false, log)
  | m :: rest, v, log =>
    match m v log with
    | .error e => .error e
    | .ok (true, log2) => .ok (true, log2)
    | .ok (false, log2) => runSome rest v log2

/-- The match-time part of `fixedArrayValidator` (tisch.js:525-539).
`checkIsArray` pushes its own diagnostic (tisch.js:493) and the wrapper
then pushes the array-pattern context line (tisch.js:527). -/
def fixedArrayMatcher (vs : List Matcher) : Matcher := fun v log =>
  match v with
  | .varr xs =>
    if xs.length ≠ vs.length then
      .ok (false, log ++ [Diag.wrongArrayLength vs.length xs.length v])
    else
      match runPairs (vs.zip xs) log with
      | .error e => .error e
      | .ok (false, log2) => .ok (false, log2 ++ [Diag.inArrayPattern])
      | .ok (true, log2) => .ok (true, log2)
  | _ => .ok (false, log ++ [Diag.notAnArray v, Diag.inArrayPattern])

/-- The match-time part of `dynamicArrayValidator` (tisch.js:546-570): check
the candidate is an array, match the fixed-length prefix with
`fixedArrayValidator`, bound the trailing length by the quantifier, then
require every trailing element to match the repeatable matcher. -/
def dynamicArrayMatcher (fvs : List Matcher) (rep : Matcher)
    (mn : Nat) (mx : Option Nat) : Matcher := fun v log =>
  match v with
  | .varr xs =>
    match fixedArrayMatcher fvs (.varr (xs.take fvs.length)) log with
    | .error e => .error e
    | .ok (false, log1) => .ok (false, log1)
    | .ok (true, log1) =>
      let rest := xs.drop fvs.length
      if rest.length < mn || !(maxOk mx rest.length) then
        .ok (false, log1 ++ [Diag.etcBounds mn mx rest.length rest])
      else
        match runEvery rep rest log1 with
        | .error e => .error e
        | .ok (false, log2) => .ok (false, log2 ++ [Diag.trailingMismatch rest])
        | .ok (true, log2) => .ok (true, log2)
  | _ => .ok (false, log ++ [Diag.notAnArray v, Diag.inArrayPattern])

/-- The match-time part of `orValidator` for a nonempty alternative list
(tisch.js:578-584): first success wins; if none matches, append one summary
diagnostic.  Nothing is ever retracted here. -/
def orMatcher (ms : List Matcher) : Matcher := fun v log =>
  match runSome ms v log with
  | .error e => .error e
  | .ok (false, log2) => .ok (false, log2 ++ [Diag.orNoMatch v])
  | .ok (true, log2) => .ok (true, log2)

/-- The match-time part of `wildcardObjectValidator` (tisch.js:597-621).
Note there is no `isObject` check on the candidate: the property count and
property values are taken through `Object.keys` / `Object.values`
coercion. -/
def wildcardMatcher (sub : Matcher) (etcQ : Option Quant) : Matcher :=
  fun v log =>
  match jsKeysCount v with
  | .error e => .error e
  | .ok n =>
    if n ≠ 1 && etcQ.isNone then
      .ok (false, log ++ [Diag.wildcardNotOne n v])
    else
      let mn := match etcQ with | some q => q.min | none => 1
      let mx := match etcQ with | some q => q.max | none => some 1
      if n < mn || !(maxOk mx n) then
        .ok (false, log ++ [Diag.wildcardBounds mn mx n])
      else
        match runEvery sub (jsValues v) log with
        | .error e => .error e
        | .ok (false, log2) => .ok (false, log2 ++ [Diag.inWildcardPattern])
        | .ok (true, log2) => .ok (true, log2)

/-- The required-field pass of `objectValidator` (tisch.js:653-664):
`Object.entries(required).every(...)`.  `every` stops at the first
failure; a missing key pushes two diagnostics (tisch.js:655-656), a
present-but-mismatched key pushes a context line (tisch.js:660). -/
def requiredLoop (reqKeys : List String) (oe : List (String × Value)) :
    List (String × Matcher) → Log → MResult
  | [], log => .ok (true, log)
  | (k, m) :: rest, log =>
    match oe.lookup k with
    | none =>
      .ok (false, log ++ [Diag.missingField k (.vobj oe),
                          Diag.requiredFieldsAre reqKeys])
    | some val =>
      match m val log with
      | .error e => .error e
      | .ok (false, log2) => .ok (false, log2 ++ [Diag.atRequiredField k])
      | .ok (true, log2) => requiredLoop reqKeys oe rest log2

/-- The optional-field-and-leftover pass of `objectValidator`
(tisch.js:671-684): walk the candidate's entries; an optional key's value
must match, a required key's entry is skipped, anything else accumulates
into the leftovers dictionary. -/
def entriesLoop (req opt : List (String × Matcher)) :
    List (String × Value) → Log → List (String × Value) →
    Except String (Bool × Log × List (String × Value))
  | [], log, lfts => .ok (true, log, lfts)
  | (k, val) :: rest, log, lfts =>
    match opt.lookup k with
    | some m =>
      match m val log with
      | .error e => .error e
      | .ok (false, log2) => .ok (false, log2 ++ [Diag.atOptionalField k], lfts)
      | .ok (true, log2) => entriesLoop req opt rest log2 lfts
    | none =>
      if (req.lookup k).isSome then entriesLoop req opt rest log lfts
      else entriesLoop req opt rest log (jsInsert lfts k val)

/-- The match-time part of `objectValidator` (tisch.js:646-698): reject
non-objects, run the required pass, then the optional/leftover pass, then
bound the leftover count by the quantifier. -/
def objectMatcher (req opt : List (String × Matcher))
    (mn : Nat) (mx : Option Nat) : Matcher := fun v log =>
  match v with
  | .vobj oe =>
    match requiredLoop (req.map Prod.fst) oe req log with
    | .error e => .error e
    | .ok (false, log1) => .ok (false, log1)
    | .ok (true, log1) =>
      match entriesLoop req opt oe log1 [] with
      | .error e => .error e
      | .ok (false, log2, _) => .ok (false, log2)
      | .ok (true, log2, lfts) =>
        if lfts.length < mn || !(maxOk mx lfts.length) then
          .ok (false, log2 ++ [Diag.extraFields lfts.length mn mx lfts])
        else .ok (true, log2)
  | _ => .ok (false, log ++ [Diag.notAnObject v])

/-!
## The pattern tree

`Schema` is the pattern-tree intermediate representation that the
(out-of-scope) front end produces and `validatorImpl` (tisch.js:415-449)
dispatches on:

* a builtin constructor function recognised by name → `typeTag`;
* any other function — an already-compiled validator supplied e.g. by the
  multi-unit resolver (tisch.js:420-427) → `precompiled`;
* a string / number / boolean / null → `lit`;
* an array → `arr`;
* an object carrying the `or` symbol → `orS`;
* an object carrying the `Any` symbol as a computed key → `anyObj`, with
  the wildcard sub-pattern, the optional spread-in `etc` descriptor and any
  (string-keyed) sibling entries;
* a bare `etc` descriptor object (what `...etc` spreads into an array) →
  `etcMarker`; outside an array position it reaches `objectValidator` as
  an object with no string-keyed entries;
* any other object → `obj`, with its entries in insertion order and the
  optional spread-in `etc` descriptor.
-/

inductive Schema where
  | typeTag (t : TypeTag)
  | precompiled (f : Matcher)
  | lit (p : Prim)
  | arr (elems : List Schema)
  | orS (alts : List Schema)
  | etcMarker (min : Nat) (max : Option Nat)
  | anyObj (sub : Schema) (etcQ : Option Quant)
      (siblings : List (String × Schema))
  | obj (entries : List (String × Schema)) (etcQ : Option Quant)

/-- `isEtc` (tisch.js:483-487): a pattern value carrying the `etc` symbol.
Besides the bare `etc` descriptor this is any object pattern into which
`...etc` was spread, since the spread copies the symbol key onto the
object literal. -/
def isEtc : Schema → Bool
  | .etcMarker _ _ => true
  | .obj _ (some _) => true
  | .anyObj _ (some _) _ => true
  | _ => false

/-- The `{min, max}` payload behind `pattern[etcSymbol]`, with the
use-site defaults `{min = 0, max = Infinity}` resolved. -/
def etcQuantOf : Schema → Quant
  | .etcMarker mn mx => ⟨mn, mx⟩
  | .obj _ (some q) => q
  | .anyObj _ (some q) _ => q
  | _ => ⟨0, none⟩

/-- JavaScript truthiness of a schema value, for the `if (schema.length)`
test of `wildcardObjectValidator` (tisch.js:591). -/
def truthySchema : Schema → Bool
  | .lit .pnull => false
  | .lit (.pbool b) => b
  | .lit (.pnum n) => n != 0
  | .lit (.pstr s) => s != ""
  | _ => true

/-- `schema[etcSymbol] || {min: 0, max: 0}` of `objectValidator`
(tisch.js:632). -/
def objQuant : Option Quant → Nat × Option Nat
  | some q => (q.min, q.max)
  | none => (0, some 0)

mutual

/-- A schema with no embedded `precompiled` (arbitrary-function) leaf. -/
def noFun : Schema → Bool
  | .typeTag _ => true
  | .precompiled _ => false
  | .lit _ => true
  | .etcMarker _ _ => true
  | .arr elems => noFunList elems
  | .orS alts => noFunList alts
  | .anyObj sub _ sibs => noFun sub && noFunEntries sibs
  | .obj entries _ => noFunEntries entries

def noFunList : List Schema → Bool
  | [] => true
  | s :: rest => noFun s && noFunList rest

def noFunEntries : List (String × Schema) → Bool
  | [] => true
  | (_, s) :: rest => noFun s && noFunEntries rest

end

theorem sizeOf_take_le_schema (l : List Schema) (k : Nat) :
    sizeOf (l.take k) ≤ sizeOf l := by
  induction l generalizing k with
  | nil => simp [List.take]
  | cons a t ih =>
    cases k with
    | zero => simp; omega
    | succ k =>
      have := ih k
      simp [List.take]
      omega

theorem sizeOf_lt_of_mem_schema {a : Schema} {l : List Schema} (h : a ∈ l) :
    sizeOf a < sizeOf l := by
  induction l with
  | nil => cases h
  | cons b t ih =>
    rcases List.mem_cons.mp h with rfl | h2
    · simp; omega
    · have := ih h2
      simp
      omega

theorem mem_of_drop_head {l : List Schema} {k : Nat} {a : Schema}
    (h : (l.drop k).head? = some a) : a ∈ l := by
  have h2 : a ∈ l.drop k := by
    cases hd : l.drop k with
    | nil => simp [hd] at h
    | cons x t =>
      simp [hd] at h
      subst h
      simp
  exact List.mem_of_mem_drop h2

/-- The compile-time error thrown by `fixedArrayValidator`
(tisch.js:519-521). -/
def etcMisplacedMsg : String :=
  "\"...etc\" cannot appear in an array except at the end."

/-- The compile-time error thrown by `wildcardObjectValidator`
(tisch.js:591-595). -/
def wildcardSiblingMsg : String :=
  "An object pattern with an Any property must have _only_ that property"

/-- `key.endsWith('?')` (tisch.js:638), on the character list so that it
evaluates by definitional unfolding. -/
def endsWithQm (s : String) : Bool :=
  match s.data.getLast? with
  | some c => c = '?'
  | none => false

/-- `key.slice(0, -1)` (tisch.js:639): the key without its final
character. -/
def stripLast (s : String) : String := String.mk s.data.dropLast

/-- The required/optional partition of `objectValidator` (tisch.js:637-644):
a key ending in `?` is optional under the stripped name, any other key is
required, with JavaScript property-assignment semantics for the two
dictionaries. -/
def buildDicts : List (String × Matcher) → List (String × Matcher) →
    List (String × Matcher) →
    List (String × Matcher) × List (String × Matcher)
  | [], req, opt => (req, opt)
  | (k, m) :: rest, req, opt =>
    if endsWithQm k then
      buildDicts rest req (jsInsert opt (stripLast k) m)
    else
      buildDicts rest (jsInsert req k m) opt

mutual

/-- `validatorImpl` (tisch.js:415-449) together with the compile-time part
of `arrayValidator` (tisch.js:497-516), `fixedArrayValidator`
(tisch.js:518-523), `dynamicArrayValidator` (tisch.js:542-544),
`orValidator` (tisch.js:573-577), `wildcardObjectValidator`
(tisch.js:587-595) and `objectValidator` (tisch.js:624-644): turn a
pattern tree into a matcher, or fail with the compile-time error the
JavaScript would throw. -/
def validatorImpl : Schema → Except String Matcher
  | .typeTag t => .ok (typeValidator t)
  | .precompiled f => .ok f
  | .lit p => .ok (literalValidator p)
  | .arr elems =>
    if elems.length < 2 then
      if elems.any isEtc then .error etcMisplacedMsg
      else do
        let ms ← compileAll elems
        .ok (fixedArrayMatcher ms)
    else
      match elems.getLast? with
      | none => .error etcMisplacedMsg
      | some last =>
        if isEtc last then
          match hrep : (elems.drop (elems.length - 2)).head? with
          | none => .error etcMisplacedMsg
          | some rep =>
            let fixedPats := elems.take (elems.length - 2)
            if fixedPats.any isEtc then .error etcMisplacedMsg
            else do
              let fvs ← compileAll fixedPats
              let rv ← validatorImpl rep
              let q := etcQuantOf last
              .ok (dynamicArrayMatcher fvs rv q.min q.max)
        else
          if elems.any isEtc then .error etcMisplacedMsg
          else do
            let ms ← compileAll elems
            .ok (fixedArrayMatcher ms)
  | .orS alts => do
      let ms ← compileAll alts
      if ms.isEmpty then .ok (fun _ log => .ok (true, log))
      else .ok (orMatcher ms)
  | .anyObj sub q sibs => do
      let m ← validatorImpl sub
      if truthySchema <$> (sibs.lookup "length") |>.getD false then
        .error wildcardSiblingMsg
      else .ok (wildcardMatcher m q)
  | .etcMarker mn mx => .ok (objectMatcher [] [] mn mx)
  | .obj entries q => do
      let kms ← compileEntries entries
      let dicts := buildDicts kms [] []
      let bounds := objQuant q
      .ok (objectMatcher dicts.1 dicts.2 bounds.1 bounds.2)
termination_by s => sizeOf s
decreasing_by
  all_goals simp_wf
  all_goals first
    | omega
    | (have hsz := sizeOf_take_le_schema elems (elems.length - 2); omega)
    | (have hsz := sizeOf_lt_of_mem_schema (mem_of_drop_head hrep); omega)

/-- `patterns.map(pattern => validatorImpl(pattern, errors))`
(tisch.js:523, 574): compile a list of sub-patterns left to right,
propagating the first compile-time error. -/
def compileAll : List Schema → Except String (List Matcher)
  | [] => .ok []
  | s :: rest => do
      let m ← validatorImpl s
      let ms ← compileAll rest
      .ok (m :: ms)
termination_by ss => sizeOf ss
decreasing_by
  all_goals simp_wf
  all_goals omega

/-- Compile each object-pattern entry's sub-pattern in insertion order
(the `Object.entries(schema).forEach` of tisch.js:637-644), keeping the
raw keys. -/
def compileEntries :
    List (String × Schema) → Except String (List (String × Matcher))
  | [] => .ok []
  | (k, s) :: rest => do
      let m ← validatorImpl s
      let ms ← compileEntries rest
      .ok ((k, m) :: ms)
termination_by es => sizeOf es
decreasing_by
  all_goals simp_wf
  all_goals omega

end

/-- `wrappedValidator` (tisch.js:384-413): clear the log, run the root
matcher, and clear the log again when the verdict is true (discarding
near-miss diagnostics from successful `or` branches).  The pre-call log
is an argument to make the clearing observable; it is discarded
unconditionally (`errors.length = 0`). -/
def wrappedValidate (impl : Matcher) (v : Value) (_prev : Log) : MResult :=
  match impl v [] with
  | .error e => .error e
  | .ok (true, _) => .ok (true, [])
  | .ok (false, log) => .ok (false, log)

/-- `validate.enforce` (tisch.js:405-410): run the wrapped validator; on
true return the input value unchanged, on false fail with an error carrying
the diagnostic log (the JavaScript joins it with newlines into the thrown
`Error`'s message); a runtime TypeError from the matcher propagates. -/
def enforceV (impl : Matcher) (v : Value) : Except (String ⊕ Log) Value :=
  match wrappedValidate impl v [] with
  | .error e => .error (Sum.inl e)
  | .ok (true, _) => .ok v
  | .ok (false, log) => .error (Sum.inr log)

/-- Compile a schema and run the resulting matcher directly (no top-level
wrapper) on a candidate with an empty log. -/
def runSchema (s : Schema) (v : Value) : MResult :=
  match validatorImpl s with
  | .ok m => m v []
  | .error e => .error e

/-- Compile a schema and run it through `wrappedValidator`'s validate. -/
def runWrapped (s : Schema) (v : Value) : MResult :=
  match validatorImpl s with
  | .ok m => wrappedValidate m v []
  | .error e => .error e

/-!
## Self-reference (spec §4.6)

The placeholder mechanism for self-referential patterns is not part of
src/tisch.js (the spec describes it as dynamic property interception in
the original front end).  It is modelled from the spec here: the
placeholder is an already-compiled-function leaf (`Schema.precompiled`,
which `validatorImpl` returns unchanged, tisch.js:420-427), and the
one-shot binding cell is realised by tying the knot: `Smatch` below is
defined so that the pattern
`S = or(Number, {"+": [S, ...etc]})` with its placeholder bound to
`Smatch` compiles to a matcher extensionally equal to `Smatch` itself.
-/

theorem sizeOf_lookup_lt {oe : List (String × Value)} {k : String}
    {v : Value} (h : oe.lookup k = some v) : sizeOf v < sizeOf oe := by
  induction oe with
  | nil => simp [List.lookup] at h
  | cons p rest ih =>
    obtain ⟨k1, v1⟩ := p
    rw [List.lookup] at h
    by_cases hk : k == k1
    · simp [hk] at h
      subst h
      simp
      omega
    · simp [hk] at h
      have := ih h
      simp
      omega

/-- Modelled from the spec: the leftover accumulation of
`objectValidator`'s entries pass, specialised to the single required key
`"+"` and no optional keys. -/
def plusLeftovers : List (String × Value) → List (String × Value) →
    List (String × Value)
  | [], acc => acc
  | (k, val) :: rest, acc =>
    if k = "+" then plusLeftovers rest acc
    else plusLeftovers rest (jsInsert acc k val)

mutual

/-- Modelled from the spec (§4.6, single self-reference): the final
matcher of the self-referential pattern
`S = or(Number, {"+": [S, ...etc(0, Infinity)]})`, i.e. what the one-shot
placeholder cell holds after binding.  Its body is the unfolding of the
matcher that `validatorImpl` produces for that pattern, with the
placeholder resolved to `Smatch` itself. -/
def Smatch : Value → Log → MResult
  | v, log =>
    match typeValidator .tNumber v log with
    | .error e => .error e
    | .ok (true, log1) => .ok (true, log1)
    | .ok (false, log1) =>
      match SmatchObj v log1 with
      | .error e => .error e
      | .ok (true, log2) => .ok (true, log2)
      | .ok (false, log2) => .ok (false, log2 ++ [Diag.orNoMatch v])
termination_by v _ => (sizeOf v, 3)

/-- The `{"+": [S, ...etc]}` alternative of `Smatch`: `objectValidator`
with the single required key `"+"`, unfolded. -/
def SmatchObj : Value → Log → MResult
  | v, log =>
    match v with
    | .vobj oe =>
      match h : oe.lookup "+" with
      | none =>
        .ok (false, log ++ [Diag.missingField "+" (.vobj oe),
                            Diag.requiredFieldsAre ["+"]])
      | some val =>
        match SmatchArr val log with
        | .error e => .error e
        | .ok (false, log2) => .ok (false, log2 ++ [Diag.atRequiredField "+"])
        | .ok (true, log2) =>
          let lfts := plusLeftovers oe []
          if lfts.length < 0 || !(maxOk (some 0) lfts.length) then
            .ok (false, log2 ++ [Diag.extraFields lfts.length 0 (some 0) lfts])
          else .ok (true, log2)
    | _ => .ok (false, log ++ [Diag.notAnObject v])
termination_by v _ => (sizeOf v, 2)
decreasing_by
  all_goals simp_wf
  all_goals
    have := sizeOf_lookup_lt h
    omega

/-- The `[S, ...etc(0, Infinity)]` sub-pattern of `Smatch`:
`dynamicArrayValidator` with no fixed prefix and unbounded quantifier,
unfolded. -/
def SmatchArr : Value → Log → MResult
  | v, log =>
    match v with
    | .varr xs =>
      match SmatchList xs log with
      | .error e => .error e
      | .ok (false, log2) => .ok (false, log2 ++ [Diag.trailingMismatch xs])
      | .ok (true, log2) => .ok (true, log2)
    | _ => .ok (false, log ++ [Diag.notAnArray v, Diag.inArrayPattern])
termination_by v _ => (sizeOf v, 1)

/-- `xs.every(Smatch)`, unfolded. -/
def SmatchList : List Value → Log → MResult
  | [], log => .ok (true, log)
  | x :: rest, log =>
    match Smatch x log with
    | .error e => .error e
    | .ok (false, log2) => .ok (false, log2)
    | .ok (true, log2) => SmatchList rest log2
termination_by xs _ => (sizeOf xs, 0)
decreasing_by
  all_goals simp_wf
  all_goals omega

end

/-- The self-referential pattern
`S = or(Number, {"+": [S, ...etc(0, Infinity)]})` of spec §8, with its
placeholder bound to the final matcher `Smatch`. -/
def recursiveS : Schema :=
  .orS [.typeTag .tNumber,
        .obj [("+", .arr [.precompiled Smatch, .etcMarker 0 none])] none]

theorem smatchList_eq_runEvery (xs : List Value) (log : Log) :
    SmatchList xs log = runEvery Smatch xs log := by
  induction xs generalizing log with
  | nil => simp [SmatchList, runEvery]
  | cons x rest ih =>
    rw [SmatchList, runEvery]
    cases hx : Smatch x log with
    | error e => rfl
    | ok p =>
      obtain ⟨b, log2⟩ := p
      cases b
      · rfl
      · exact ih log2

theorem smatchArr_eq_dynamic (v : Value) (log : Log) :
    SmatchArr v log = dynamicArrayMatcher [] Smatch 0 none v log := by
  cases v with
  | varr xs =>
    rw [SmatchArr]
    have hfix : fixedArrayMatcher []
        (.varr (List.take (List.length ([] : List Matcher)) xs)) log
        = .ok (true, log) := rfl
    simp only [dynamicArrayMatcher, hfix, List.length_nil, List.drop_zero,
      maxOk, Nat.not_lt_zero, Bool.not_true, decide_False, Bool.false_or,
      Bool.or_false, if_false, smatchList_eq_runEvery]
    rfl
  | vnull => simp [SmatchArr, dynamicArrayMatcher]
  | vbool b => simp [SmatchArr, dynamicArrayMatcher]
  | vnum n => simp [SmatchArr, dynamicArrayMatcher]
  | vstr s => simp [SmatchArr, dynamicArrayMatcher]
  | vobj oe => simp [SmatchArr, dynamicArrayMatcher]

theorem entriesLoop_plus (m : Matcher) (oe : List (String × Value))
    (log : Log) (acc : List (String × Value)) :
    entriesLoop [("+", m)] [] oe log acc = .ok (true, log, plusLeftovers oe acc) := by
  induction oe generalizing acc with
  | nil => simp [entriesLoop, plusLeftovers]
  | cons p rest ih =>
    obtain ⟨k, val⟩ := p
    rw [entriesLoop, plusLeftovers]
    by_cases hk : k = "+"
    · subst hk
      simp [List.lookup, ih]
    · have hbeq : (k == "+") = false := beq_eq_false_iff_ne.mpr hk
      simp [List.lookup, hbeq, hk, ih]

theorem smatchObj_eq_object (v : Value) (log : Log) :
    SmatchObj v log =
      objectMatcher [("+", dynamicArrayMatcher [] Smatch 0 none)] [] 0 (some 0)
        v log := by
  cases v with
  | vobj oe =>
    rw [SmatchObj]
    simp only [objectMatcher, List.map, requiredLoop]
    cases hl : oe.lookup "+" with
    | none => simp
    | some val =>
      dsimp only
      rw [← smatchArr_eq_dynamic]
      cases hr : SmatchArr val log with
      | error e => rfl
      | ok p =>
        obtain ⟨b, log2⟩ := p
        cases b
        · rfl
        · simp only [requiredLoop, entriesLoop_plus]
  | vnull => simp [SmatchObj, objectMatcher]
  | vbool b => simp [SmatchObj, objectMatcher]
  | vnum n => simp [SmatchObj, objectMatcher]
  | vstr s => simp [SmatchObj, objectMatcher]
  | varr xs => simp [SmatchObj, objectMatcher]

theorem smatch_eq_compiled (v : Value) (log : Log) :
    Smatch v log =
      orMatcher [typeValidator .tNumber,
        objectMatcher [("+", dynamicArrayMatcher [] Smatch 0 none)] []
          0 (some 0)] v log := by
  rw [Smatch]
  simp only [orMatcher, runSome]
  by_cases ht : typeMatches .tNumber v
  · simp [typeValidator, ht]
  · simp only [typeValidator, ht, if_false, Bool.false_eq_true]
    rw [← smatchObj_eq_object]
    cases ho : SmatchObj v (log ++ [Diag.typeMismatch .tNumber v]) with
    | error e => rfl
    | ok p =>
      obtain ⟨b, log2⟩ := p
      cases b
      · rfl
      · rfl

theorem validatorImpl_recursiveS :
    validatorImpl recursiveS =
      .ok (orMatcher [typeValidator .tNumber,
        objectMatcher [("+", dynamicArrayMatcher [] Smatch 0 none)] []
          0 (some 0)]) := by
  simp [recursiveS, validatorImpl, compileAll, compileEntries, isEtc,
        etcQuantOf, buildDicts, endsWithQm, jsInsert, objQuant]
  rfl

/-!
## Stability

Every matcher built by `validatorImpl` from a pattern with no embedded
already-compiled function only ever appends to the log, and neither its
verdict nor what it appends depends on the log it starts from.
-/

def extendRes (log : Log) : MResult → MResult
  | .ok (b, d) => .ok (b, log ++ d)
  | .error e => .error e

def Stable (m : Matcher) : Prop := ∀ v log, m v log = extendRes log (m v [])

theorem extendRes_nil (r : MResult) : extendRes [] r = r := by
  cases r with
  | error e => rfl
  | ok p => obtain ⟨b, d⟩ := p; simp [extendRes]

theorem extendRes_ok (log : Log) (b : Bool) (d : Log) :
    extendRes log (.ok (b, d)) = .ok (b, log ++ d) := rfl

theorem extendRes_error (log : Log) (e : String) :
    extendRes log (.error e) = .error e := rfl

theorem extendRes_append (a b : Log) (r : MResult) :
    extendRes (a ++ b) r = extendRes a (extendRes b r) := by
  cases r with
  | error e => rfl
  | ok p => obtain ⟨c, d⟩ := p; simp [extendRes]

theorem stable_typeValidator (t : TypeTag) : Stable (typeValidator t) := by
  intro v log
  by_cases h : typeMatches t v <;> simp [typeValidator, h, extendRes]

theorem stable_literalValidator (p : Prim) : Stable (literalValidator p) := by
  intro v log
  by_cases h : primEq p v <;> simp [literalValidator, h, extendRes]

theorem stable_runEvery {m : Matcher} (hm : Stable m) (xs : List Value) :
    ∀ log, runEvery m xs log = extendRes log (runEvery m xs []) := by
  induction xs with
  | nil => intro log; simp [runEvery, extendRes]
  | cons x rest ih =>
    intro log
    rw [runEvery, runEvery, hm x log]
    cases hx : m x [] with
    | error e => rfl
    | ok p =>
      obtain ⟨b, d⟩ := p
      cases b
      · simp [extendRes_ok, extendRes]
      · simp only [extendRes_ok, List.nil_append]
        rw [ih (log ++ d), ih d, ← extendRes_append]

theorem stable_runPairs (pairs : List (Matcher × Value))
    (h : ∀ p ∈ pairs, Stable p.1) :
    ∀ log, runPairs pairs log = extendRes log (runPairs pairs []) := by
  induction pairs with
  | nil => intro log; simp [runPairs, extendRes]
  | cons p rest ih =>
    intro log
    obtain ⟨m, x⟩ := p
    have hm : Stable m := h (m, x) (by simp)
    have hrest : ∀ q ∈ rest, Stable q.1 := fun q hq => h q (by simp [hq])
    rw [runPairs, runPairs, hm x log]
    cases hx : m x [] with
    | error e => rfl
    | ok q =>
      obtain ⟨b, d⟩ := q
      cases b
      · simp [extendRes_ok, extendRes]
      · simp only [extendRes_ok, List.nil_append]
        rw [ih hrest (log ++ d), ih hrest d, ← extendRes_append]

theorem stable_runSome (ms : List Matcher) (h : ∀ m ∈ ms, Stable m)
    (v : Value) :
    ∀ log, runSome ms v log = extendRes log (runSome ms v []) := by
  induction ms with
  | nil => intro log; simp [runSome, extendRes]
  | cons m rest ih =>
    intro log
    have hm : Stable m := h m (by simp)
    have hrest : ∀ m2 ∈ rest, Stable m2 := fun m2 hm2 => h m2 (by simp [hm2])
    rw [runSome, runSome, hm v log]
    cases hx : m v [] with
    | error e => rfl
    | ok q =>
      obtain ⟨b, d⟩ := q
      cases b
      · simp only [extendRes_ok, List.nil_append]
        rw [ih hrest (log ++ d), ih hrest d, ← extendRes_append]
      · simp [extendRes_ok, extendRes]

theorem stable_fixedArrayMatcher {vs : List Matcher}
    (h : ∀ m ∈ vs, Stable m) : Stable (fixedArrayMatcher vs) := by
  intro v log
  cases v with
  | varr xs =>
    rw [fixedArrayMatcher]
    by_cases hlen : xs.length = vs.length
    · have hpairs : ∀ p ∈ vs.zip xs, Stable p.1 := by
        intro p hp
        obtain ⟨hm, _⟩ := List.of_mem_zip hp
        exact h p.1 hm
      simp only [fixedArrayMatcher, hlen, ne_eq, not_true_eq_false, if_false,
        ite_false, if_neg]
      rw [stable_runPairs _ hpairs log]
      cases hrp : runPairs (vs.zip xs) [] with
      | error e => simp [extendRes, hlen]
      | ok q =>
        obtain ⟨b, d⟩ := q
        cases b <;> simp [extendRes, hlen]
    · simp [fixedArrayMatcher, hlen, extendRes]
  | vnull => simp [fixedArrayMatcher, extendRes]
  | vbool b => simp [fixedArrayMatcher, extendRes]
  | vnum n => simp [fixedArrayMatcher, extendRes]
  | vstr s => simp [fixedArrayMatcher, extendRes]
  | vobj oe => simp [fixedArrayMatcher, extendRes]

theorem stable_dynamicArrayMatcher {fvs : List Matcher} {rep : Matcher}
    (hf : ∀ m ∈ fvs, Stable m) (hr : Stable rep) (mn : Nat) (mx : Option Nat) :
    Stable (dynamicArrayMatcher fvs rep mn mx) := by
  intro v log
  cases v with
  | varr xs =>
    unfold dynamicArrayMatcher
    dsimp only
    rw [stable_fixedArrayMatcher hf (.varr (xs.take fvs.length)) log]
    cases hfix : fixedArrayMatcher fvs (.varr (xs.take fvs.length)) [] with
    | error e => rfl
    | ok q =>
      obtain ⟨b, d⟩ := q
      cases b
      · rfl
      · simp only [extendRes_ok, List.nil_append]
        cases hc : (decide ((xs.drop fvs.length).length < mn)
            || !maxOk mx (xs.drop fvs.length).length) with
        | true =>
          simp only [hc, if_true, ite_true, extendRes_ok, List.append_assoc]
        | false =>
          simp only [hc, Bool.false_eq_true, if_false, ite_false]
          rw [stable_runEvery hr _ (log ++ d), stable_runEvery hr _ d]
          cases hre : runEvery rep (xs.drop fvs.length) [] with
          | error e => rfl
          | ok q2 =>
            obtain ⟨b2, d2⟩ := q2
            cases b2 <;>
              simp [extendRes_ok, extendRes, List.append_assoc]
  | vnull => simp [dynamicArrayMatcher, extendRes]
  | vbool b => simp [dynamicArrayMatcher, extendRes]
  | vnum n => simp [dynamicArrayMatcher, extendRes]
  | vstr s => simp [dynamicArrayMatcher, extendRes]
  | vobj oe => simp [dynamicArrayMatcher, extendRes]

theorem stable_orMatcher {ms : List Matcher} (h : ∀ m ∈ ms, Stable m) :
    Stable (orMatcher ms) := by
  intro v log
  rw [orMatcher, orMatcher, stable_runSome ms h v log]
  cases hrs : runSome ms v [] with
  | error e => rfl
  | ok q =>
    obtain ⟨b, d⟩ := q
    cases b <;> simp [extendRes_ok, extendRes, List.append_assoc]

theorem stable_constTrue : Stable (fun _ log => .ok (true, log)) := by
  intro v log
  simp [extendRes]

theorem stable_wildcardMatcher {sub : Matcher} (hs : Stable sub)
    (etcQ : Option Quant) : Stable (wildcardMatcher sub etcQ) := by
  intro v log
  unfold wildcardMatcher
  cases hk : jsKeysCount v with
  | error e => rfl
  | ok n =>
    dsimp only
    split_ifs with h1 h2
    · simp [extendRes]
    · simp [extendRes]
    · rw [stable_runEvery hs (jsValues v) log]
      cases hre : runEvery sub (jsValues v) [] with
      | error e => rfl
      | ok q =>
        obtain ⟨b, d⟩ := q
        cases b <;> simp [extendRes_ok, extendRes, List.append_assoc]

theorem stable_requiredLoop (reqKeys : List String)
    (oe : List (String × Value)) (req : List (String × Matcher))
    (h : ∀ p ∈ req, Stable p.2) :
    ∀ log, requiredLoop reqKeys oe req log
      = extendRes log (requiredLoop reqKeys oe req []) := by
  induction req with
  | nil => intro log; simp [requiredLoop, extendRes]
  | cons p rest ih =>
    intro log
    obtain ⟨k, m⟩ := p
    have hm : Stable m := h (k, m) (by simp)
    have hrest : ∀ q ∈ rest, Stable q.2 := fun q hq => h q (by simp [hq])
    rw [requiredLoop, requiredLoop]
    cases hl : oe.lookup k with
    | none => simp [extendRes]
    | some val =>
      dsimp only
      rw [hm val log]
      cases hx : m val [] with
      | error e => rfl
      | ok q =>
        obtain ⟨b, d⟩ := q
        cases b
        · simp [extendRes_ok, extendRes, List.append_assoc]
        · simp only [extendRes_ok, List.nil_append]
          rw [ih hrest (log ++ d), ih hrest d, ← extendRes_append]

theorem mem_of_lookup {α : Type} {l : List (String × α)} {k : String}
    {a : α} (h : l.lookup k = some a) : (k, a) ∈ l := by
  induction l with
  | nil => simp [List.lookup] at h
  | cons p rest ih =>
    obtain ⟨k1, a1⟩ := p
    rw [List.lookup] at h
    by_cases hk : k == k1
    · simp [hk] at h
      subst h
      have hk2 : k = k1 := by simpa using hk
      subst hk2
      simp
    · simp [hk] at h
      exact List.mem_cons_of_mem _ (ih h)

def extendEntries (log : Log) :
    Except String (Bool × Log × List (String × Value)) →
    Except String (Bool × Log × List (String × Value))
  | .ok (b, d, l) => .ok (b, log ++ d, l)
  | .error e => .error e

theorem extendEntries_ok (log : Log) (b : Bool) (d : Log)
    (l : List (String × Value)) :
    extendEntries log (.ok (b, d, l)) = .ok (b, log ++ d, l) := rfl

theorem extendEntries_append (a b : Log)
    (r : Except String (Bool × Log × List (String × Value))) :
    extendEntries (a ++ b) r = extendEntries a (extendEntries b r) := by
  cases r with
  | error e => rfl
  | ok q => obtain ⟨c, d, l⟩ := q; simp [extendEntries]

theorem stable_entriesLoop (req opt : List (String × Matcher))
    (h : ∀ p ∈ opt, Stable p.2) (oe : List (String × Value)) :
    ∀ log acc, entriesLoop req opt oe log acc
      = extendEntries log (entriesLoop req opt oe [] acc) := by
  induction oe with
  | nil => intro log acc; simp [entriesLoop, extendEntries]
  | cons p rest ih =>
    intro log acc
    obtain ⟨k, val⟩ := p
    rw [entriesLoop, entriesLoop]
    cases hl : opt.lookup k with
    | some m =>
      have hm : Stable m := h (k, m) (mem_of_lookup hl)
      dsimp only
      rw [hm val log]
      cases hx : m val [] with
      | error e => rfl
      | ok q =>
        obtain ⟨b, d⟩ := q
        cases b
        · simp [extendRes_ok, extendEntries, List.append_assoc]
        · simp only [extendRes_ok, List.nil_append]
          rw [ih (log ++ d) acc, ih d acc, ← extendEntries_append]
    | none =>
      by_cases hr : (req.lookup k).isSome = true
      · simp only [hr, if_true, ite_true]
        exact ih log acc
      · simp only [hr, Bool.false_eq_true, if_false, ite_false]
        exact ih log (jsInsert acc k val)

theorem stable_objectMatcher (req opt : List (String × Matcher))
    (hreq : ∀ p ∈ req, Stable p.2) (hopt : ∀ p ∈ opt, Stable p.2)
    (mn : Nat) (mx : Option Nat) : Stable (objectMatcher req opt mn mx) := by
  intro v log
  cases v with
  | vobj oe =>
    unfold objectMatcher
    dsimp only
    rw [stable_requiredLoop _ _ _ hreq log]
    cases hrl : requiredLoop (req.map Prod.fst) oe req [] with
    | error e => rfl
    | ok q =>
      obtain ⟨b, d⟩ := q
      cases b
      · rfl
      · simp only [extendRes_ok, List.nil_append]
        rw [stable_entriesLoop req opt hopt oe (log ++ d) [],
            stable_entriesLoop req opt hopt oe d []]
        cases he : entriesLoop req opt oe [] [] with
        | error e => rfl
        | ok q2 =>
          obtain ⟨b2, d2, lfts⟩ := q2
          cases b2
          · simp [extendEntries_ok, extendRes, List.append_assoc]
          · simp only [extendEntries_ok]
            split_ifs with hb
            · simp [extendRes, List.append_assoc]
            · simp [extendRes, List.append_assoc]
  | vnull => simp [objectMatcher, extendRes]
  | vbool b => simp [objectMatcher, extendRes]
  | vnum n => simp [objectMatcher, extendRes]
  | vstr s => simp [objectMatcher, extendRes]
  | varr xs => simp [objectMatcher, extendRes]

theorem mem_jsInsert {α : Type} {l : List (String × α)} {k : String} {a : α}
    {p : String × α} (h : p ∈ jsInsert l k a) : p ∈ l ∨ p.2 = a := by
  induction l with
  | nil =>
    simp [jsInsert] at h
    subst h
    simp
  | cons q rest ih =>
    obtain ⟨k1, a1⟩ := q
    rw [jsInsert] at h
    by_cases hk : k1 = k
    · simp [hk] at h
      rcases h with h | h
      · right; rw [h]
      · left; simp [h]
    · simp [hk] at h
      rcases h with h | h
      · left; simp [h]
      · rcases ih h with h2 | h2
        · left; simp [h2]
        · right; exact h2

theorem stable_buildDicts :
    ∀ (kms req opt : List (String × Matcher)),
    (∀ p ∈ kms, Stable p.2) → (∀ p ∈ req, Stable p.2) →
    (∀ p ∈ opt, Stable p.2) →
    (∀ p ∈ (buildDicts kms req opt).1, Stable p.2)
    ∧ (∀ p ∈ (buildDicts kms req opt).2, Stable p.2) := by
  intro kms
  induction kms with
  | nil =>
    intro req opt _ hreq hopt
    exact ⟨hreq, hopt⟩
  | cons q rest ih =>
    intro req opt hkms hreq hopt
    obtain ⟨k, m⟩ := q
    have hm : Stable m := hkms (k, m) (by simp)
    have hrest : ∀ p ∈ rest, Stable p.2 := fun p hp => hkms p (by simp [hp])
    rw [buildDicts]
    by_cases hq : endsWithQm k
    · simp only [hq, if_true, ite_true]
      refine ih _ _ hrest hreq ?_
      intro p hp
      rcases mem_jsInsert hp with h2 | h2
      · exact hopt p h2
      · rw [h2]; exact hm
    · simp only [hq, Bool.false_eq_true, if_false, ite_false]
      refine ih _ _ hrest ?_ hopt
      intro p hp
      rcases mem_jsInsert hp with h2 | h2
      · exact hreq p h2
      · rw [h2]; exact hm

theorem noFunList_iff {l : List Schema} :
    noFunList l = true ↔ ∀ s ∈ l, noFun s = true := by
  induction l with
  | nil => simp [noFunList]
  | cons s rest ih =>
    rw [noFunList]
    simp [Bool.and_eq_true, ih]

theorem noFunEntries_iff {l : List (String × Schema)} :
    noFunEntries l = true ↔ ∀ p ∈ l, noFun p.2 = true := by
  induction l with
  | nil => simp [noFunEntries]
  | cons p rest ih =>
    obtain ⟨k, s⟩ := p
    rw [noFunEntries]
    simp [Bool.and_eq_true, ih]

theorem sizeOf_lt_of_mem_entries {p : String × Schema}
    {l : List (String × Schema)} (h : p ∈ l) : sizeOf p.2 < sizeOf l := by
  induction l with
  | nil => cases h
  | cons q rest ih =>
    rcases List.mem_cons.mp h with rfl | h2
    · obtain ⟨k, s⟩ := p
      simp
      omega
    · have := ih h2
      simp
      omega

theorem except_bind_error {α β : Type} (e : String)
    (f : α → Except String β) :
    (Except.error e >>= f) = Except.error e := rfl

theorem except_bind_ok {α β : Type} (a : α) (f : α → Except String β) :
    (Except.ok a >>= f) = f a := rfl

theorem stable_triple : ∀ n : Nat,
    (∀ s : Schema, sizeOf s ≤ n → noFun s = true →
      ∀ m, validatorImpl s = .ok m → Stable m)
    ∧ (∀ ss : List Schema, sizeOf ss ≤ n → noFunList ss = true →
      ∀ ms, compileAll ss = .ok ms → ∀ m ∈ ms, Stable m)
    ∧ (∀ es : List (String × Schema), sizeOf es ≤ n → noFunEntries es = true →
      ∀ kms, compileEntries es = .ok kms → ∀ p ∈ kms, Stable p.2) := by
  intro n
  induction n using Nat.strong_induction_on with
  | _ n ih =>
    refine ⟨?_, ?_, ?_⟩
    · intro s hsize hnf m hok
      cases s with
      | typeTag t =>
        simp [validatorImpl] at hok
        subst hok
        exact stable_typeValidator t
      | precompiled f => simp [noFun] at hnf
      | lit p =>
        simp [validatorImpl] at hok
        subst hok
        exact stable_literalValidator p
      | etcMarker mn mx =>
        simp [validatorImpl] at hok
        subst hok
        exact stable_objectMatcher [] [] (by simp) (by simp) mn mx
      | orS alts =>
        rw [validatorImpl] at hok
        rw [noFun] at hnf
        have hlt : sizeOf alts < n := by
          simp at hsize
          omega
        cases hc : compileAll alts with
        | error e =>
          rw [hc, except_bind_error] at hok
          exact Except.noConfusion hok
        | ok ms =>
          rw [hc, except_bind_ok] at hok
          have hms : ∀ m2 ∈ ms, Stable m2 :=
            (ih _ hlt).2.1 alts le_rfl hnf ms hc
          by_cases he : ms.isEmpty
          · simp [he] at hok
            subst hok
            exact stable_constTrue
          · simp [he] at hok
            subst hok
            exact stable_orMatcher hms
      | anyObj sub q sibs =>
        rw [validatorImpl] at hok
        rw [noFun, Bool.and_eq_true] at hnf
        have hlt : sizeOf sub < n := by
          simp at hsize
          omega
        cases h1 : validatorImpl sub with
        | error e =>
          rw [h1, except_bind_error] at hok
          exact Except.noConfusion hok
        | ok msub =>
          rw [h1, except_bind_ok] at hok
          have hsub : Stable msub := (ih _ hlt).1 sub le_rfl hnf.1 msub h1
          by_cases ht : (truthySchema <$> List.lookup "length" sibs).getD
              false = true
          · rw [if_pos ht] at hok
            exact Except.noConfusion hok
          · rw [if_neg ht] at hok
            cases hok
            exact stable_wildcardMatcher hsub q
      | obj entries q =>
        rw [validatorImpl] at hok
        rw [noFun] at hnf
        have hlt : sizeOf entries < n := by
          simp at hsize
          omega
        cases hc : compileEntries entries with
        | error e =>
          rw [hc, except_bind_error] at hok
          exact Except.noConfusion hok
        | ok kms =>
          rw [hc, except_bind_ok] at hok
          cases hok
          have hkms : ∀ p ∈ kms, Stable p.2 :=
            (ih _ hlt).2.2 entries le_rfl hnf kms hc
          have hd := stable_buildDicts kms [] [] hkms (by simp) (by simp)
          exact stable_objectMatcher _ _ hd.1 hd.2 _ _
      | arr elems =>
        rw [validatorImpl] at hok
        rw [noFun] at hnf
        have hlt : sizeOf elems < n := by
          simp at hsize
          omega
        by_cases hlen : elems.length < 2
        · rw [if_pos hlen] at hok
          by_cases hetc : elems.any isEtc
          · simp [hetc] at hok
          · simp only [hetc, Bool.false_eq_true, if_false, ite_false] at hok
            cases hc : compileAll elems with
            | error e =>
          rw [hc, except_bind_error] at hok
          exact Except.noConfusion hok
            | ok ms =>
              rw [hc, except_bind_ok] at hok
              cases hok
              exact stable_fixedArrayMatcher
                ((ih _ hlt).2.1 elems le_rfl hnf ms hc)
        · rw [if_neg hlen] at hok
          cases hlast : elems.getLast? with
          | none => rw [hlast] at hok; simp at hok
          | some last =>
            rw [hlast] at hok
            by_cases hel : isEtc last
            · simp only [hel, if_true, ite_true] at hok
              cases hrep : (elems.drop (elems.length - 2)).head? with
              | none => rw [hrep] at hok; simp at hok
              | some rep =>
                rw [hrep] at hok
                dsimp only at hok
                by_cases hfx : (elems.take (elems.length - 2)).any isEtc
                · simp [hfx] at hok
                · simp only [hfx, Bool.false_eq_true, if_false, ite_false]
                    at hok
                  cases hc : compileAll (elems.take (elems.length - 2)) with
                  | error e =>
          rw [hc, except_bind_error] at hok
          exact Except.noConfusion hok
                  | ok fvs =>
                    rw [hc, except_bind_ok] at hok
                    cases h2 : validatorImpl rep with
                    | error e =>
          rw [h2, except_bind_error] at hok
          exact Except.noConfusion hok
                    | ok rv =>
                      rw [h2, except_bind_ok] at hok
                      cases hok
                      have hmemrep : rep ∈ elems := mem_of_drop_head hrep
                      have hszrep : sizeOf rep < n := by
                        have := sizeOf_lt_of_mem_schema hmemrep
                        omega
                      have hsztake : sizeOf (elems.take (elems.length - 2)) ≤
                          sizeOf elems :=
                        sizeOf_take_le_schema elems (elems.length - 2)
                      have hnfl := noFunList_iff.mp hnf
                      apply stable_dynamicArrayMatcher
                      · refine (ih _ (by omega)).2.1 _ le_rfl ?_ fvs hc
                        exact noFunList_iff.mpr fun s hs =>
                          hnfl s (List.mem_of_mem_take hs)
                      · exact (ih _ hszrep).1 rep le_rfl (hnfl rep hmemrep) rv h2
            · simp only [hel, Bool.false_eq_true, if_false, ite_false] at hok
              by_cases hetc : elems.any isEtc
              · simp [hetc] at hok
              · simp only [hetc, Bool.false_eq_true, if_false, ite_false] at hok
                cases hc : compileAll elems with
                | error e =>
          rw [hc, except_bind_error] at hok
          exact Except.noConfusion hok
                | ok ms =>
                  rw [hc, except_bind_ok] at hok
                  cases hok
                  exact stable_fixedArrayMatcher
                    ((ih _ hlt).2.1 elems le_rfl hnf ms hc)
    · intro ss hsize hnfl ms hok
      cases ss with
      | nil =>
        simp [compileAll] at hok
        subst hok
        simp
      | cons s rest =>
        rw [compileAll] at hok
        rw [noFunList, Bool.and_eq_true] at hnfl
        cases h1 : validatorImpl s with
        | error e =>
          rw [h1, except_bind_error] at hok
          exact Except.noConfusion hok
        | ok m1 =>
          rw [h1, except_bind_ok] at hok
          cases h2 : compileAll rest with
          | error e =>
          rw [h2, except_bind_error] at hok
          exact Except.noConfusion hok
          | ok ms2 =>
            rw [h2, except_bind_ok] at hok
            cases hok
            have hs1 : sizeOf s < n := by
              simp at hsize
              omega
            have hs2 : sizeOf rest < n := by
              simp at hsize
              omega
            intro m hm
            rcases List.mem_cons.mp hm with rfl | hm2
            · exact (ih _ hs1).1 s le_rfl hnfl.1 _ h1
            · exact (ih _ hs2).2.1 rest le_rfl hnfl.2 ms2 h2 m hm2
    · intro es hsize hnfe kms hok
      cases es with
      | nil =>
        simp [compileEntries] at hok
        subst hok
        simp
      | cons p rest =>
        obtain ⟨k, s⟩ := p
        rw [compileEntries] at hok
        rw [noFunEntries, Bool.and_eq_true] at hnfe
        cases h1 : validatorImpl s with
        | error e =>
          rw [h1, except_bind_error] at hok
          exact Except.noConfusion hok
        | ok m1 =>
          rw [h1, except_bind_ok] at hok
          cases h2 : compileEntries rest with
          | error e =>
          rw [h2, except_bind_error] at hok
          exact Except.noConfusion hok
          | ok kms2 =>
            rw [h2, except_bind_ok] at hok
            cases hok
            have hs1 : sizeOf s < n := by
              simp at hsize
              omega
            have hs2 : sizeOf rest < n := by
              simp at hsize
              omega
            intro q hq
            rcases List.mem_cons.mp hq with rfl | hq2
            · exact (ih _ hs1).1 s le_rfl hnfe.1 _ h1
            · exact (ih _ hs2).2.2 rest le_rfl hnfe.2 kms2 h2 q hq2

theorem stable_of_noFun {s : Schema} (hnf : noFun s = true) {m : Matcher}
    (hok : validatorImpl s = .ok m) : Stable m :=
  (stable_triple (sizeOf s)).1 s le_rfl hnf m hok

/-!
## Verdict characterizations
-/

/-- The verdict of a matcher run: `some b` for a returned boolean, `none`
for a thrown runtime error. -/
def resultOf (r : MResult) : Option Bool :=
  match r with
  | .ok (b, _) => some b
  | .error _ => none

/-- The matcher accepts the value (when run on an empty log). -/
def accepts (m : Matcher) (v : Value) : Prop := ∃ l, m v [] = .ok (true, l)

/-- The schema compiles and its matcher accepts the value. -/
def schemaAccepts (s : Schema) (v : Value) : Prop :=
  ∃ m, validatorImpl s = .ok m ∧ accepts m v

/-- The diagnostics a matcher appends when run on an empty log. -/
def deltaOf (m : Matcher) (v : Value) : Log :=
  match m v [] with
  | .ok (_, d) => d
  | .error _ => []

theorem compileAll_spec {ss : List Schema} {ms : List Matcher}
    (h : compileAll ss = .ok ms) :
    List.Forall₂ (fun s m => validatorImpl s = .ok m) ss ms := by
  induction ss generalizing ms with
  | nil =>
    simp [compileAll] at h
    subst h
    exact List.Forall₂.nil
  | cons s rest ih =>
    rw [compileAll] at h
    cases h1 : validatorImpl s with
    | error e =>
      rw [h1, except_bind_error] at h
      exact Except.noConfusion h
    | ok m1 =>
      rw [h1, except_bind_ok] at h
      cases h2 : compileAll rest with
      | error e =>
        rw [h2, except_bind_error] at h
        exact Except.noConfusion h
      | ok ms2 =>
        rw [h2, except_bind_ok] at h
        cases h
        exact List.Forall₂.cons h1 (ih h2)

theorem compileEntries_spec {es : List (String × Schema)}
    {kms : List (String × Matcher)} (h : compileEntries es = .ok kms) :
    List.Forall₂ (fun e p => e.1 = p.1 ∧ validatorImpl e.2 = .ok p.2) es kms := by
  induction es generalizing kms with
  | nil =>
    simp [compileEntries] at h
    subst h
    exact List.Forall₂.nil
  | cons e rest ih =>
    obtain ⟨k, s⟩ := e
    rw [compileEntries] at h
    cases h1 : validatorImpl s with
    | error er =>
      rw [h1, except_bind_error] at h
      exact Except.noConfusion h
    | ok m1 =>
      rw [h1, except_bind_ok] at h
      cases h2 : compileEntries rest with
      | error er =>
        rw [h2, except_bind_error] at h
        exact Except.noConfusion h
      | ok kms2 =>
        rw [h2, except_bind_ok] at h
        cases h
        exact List.Forall₂.cons ⟨rfl, h1⟩ (ih h2)

theorem runEvery_ok_iff {m : Matcher} (hm : Stable m) (xs : List Value)
    (log : Log) :
    (∃ l, runEvery m xs log = .ok (true, l)) ↔ ∀ x ∈ xs, accepts m x := by
  induction xs generalizing log with
  | nil => simp [runEvery]
  | cons x rest ih =>
    rw [runEvery]
    constructor
    · rintro ⟨l, hl⟩ y hy
      rw [hm x log] at hl
      cases hx : m x [] with
      | error e => rw [hx] at hl; exact Except.noConfusion hl
      | ok q =>
        obtain ⟨b, d⟩ := q
        cases b
        · rw [hx] at hl
          simp [extendRes] at hl
        · rcases List.mem_cons.mp hy with rfl | hy2
          · exact ⟨d, hx⟩
          · rw [hx] at hl
            simp only [extendRes_ok] at hl
            exact (ih (log ++ d)).mp ⟨l, hl⟩ y hy2
    · intro hall
      obtain ⟨d, hx⟩ := hall x (by simp)
      rw [hm x log, hx, extendRes_ok]
      have hrest : ∀ y ∈ rest, accepts m y := fun y hy => hall y (by simp [hy])
      exact (ih (log ++ d)).mpr hrest

theorem runPairs_ok_iff (pairs : List (Matcher × Value))
    (hst : ∀ p ∈ pairs, Stable p.1) (log : Log) :
    (∃ l, runPairs pairs log = .ok (true, l)) ↔
      ∀ p ∈ pairs, accepts p.1 p.2 := by
  induction pairs generalizing log with
  | nil => simp [runPairs]
  | cons p rest ih =>
    obtain ⟨m, x⟩ := p
    have hm : Stable m := hst (m, x) (by simp)
    have hrest : ∀ q ∈ rest, Stable q.1 := fun q hq => hst q (by simp [hq])
    rw [runPairs]
    constructor
    · rintro ⟨l, hl⟩ q hq
      rw [hm x log] at hl
      cases hx : m x [] with
      | error e => rw [hx] at hl; exact Except.noConfusion hl
      | ok q2 =>
        obtain ⟨b, d⟩ := q2
        cases b
        · rw [hx] at hl
          simp [extendRes] at hl
        · rcases List.mem_cons.mp hq with rfl | hq2
          · exact ⟨d, hx⟩
          · rw [hx] at hl
            simp only [extendRes_ok] at hl
            exact (ih hrest (log ++ d)).mp ⟨l, hl⟩ q hq2
    · intro hall
      obtain ⟨d, hx⟩ := hall (m, x) (by simp)
      have hx2 : m x [] = .ok (true, d) := hx
      rw [hm x log, hx2, extendRes_ok]
      exact (ih hrest (log ++ d)).mpr fun q hq => hall q (by simp [hq])

theorem requiredLoop_ok_iff (reqKeys : List String)
    (oe : List (String × Value)) (req : List (String × Matcher))
    (hst : ∀ p ∈ req, Stable p.2) (log : Log) :
    (∃ l, requiredLoop reqKeys oe req log = .ok (true, l)) ↔
      ∀ p ∈ req, ∃ val, oe.lookup p.1 = some val ∧ accepts p.2 val := by
  induction req generalizing log with
  | nil => simp [requiredLoop]
  | cons p rest ih =>
    obtain ⟨k, m⟩ := p
    have hm : Stable m := hst (k, m) (by simp)
    have hrest : ∀ q ∈ rest, Stable q.2 := fun q hq => hst q (by simp [hq])
    rw [requiredLoop]
    constructor
    · rintro ⟨l, hl⟩ q hq
      cases hlk : oe.lookup k with
      | none => rw [hlk] at hl; simp at hl
      | some val =>
        rw [hlk] at hl
        dsimp only at hl
        rw [hm val log] at hl
        cases hx : m val [] with
        | error e => rw [hx] at hl; exact Except.noConfusion hl
        | ok q2 =>
          obtain ⟨b, d⟩ := q2
          cases b
          · rw [hx] at hl
            simp [extendRes] at hl
          · rcases List.mem_cons.mp hq with rfl | hq2
            · exact ⟨val, hlk, d, hx⟩
            · rw [hx] at hl
              simp only [extendRes_ok] at hl
              exact (ih hrest (log ++ d)).mp ⟨l, hl⟩ q hq2
    · intro hall
      obtain ⟨val, hlk, d, hx⟩ := hall (k, m) (by simp)
      rw [hlk]
      dsimp only
      have hx2 : m val [] = .ok (true, d) := hx
      rw [hm val log, hx2, extendRes_ok]
      exact (ih hrest (log ++ d)).mpr fun q hq => hall q (by simp [hq])

/-- The leftovers dictionary that the entries pass accumulates when it
succeeds: every candidate entry whose key is neither optional nor required
is inserted. -/
def collectLeftovers (req opt : List (String × Matcher)) :
    List (String × Value) → List (String × Value) → List (String × Value)
  | [], acc => acc
  | (k, val) :: rest, acc =>
    if (opt.lookup k).isSome then collectLeftovers req opt rest acc
    else if (req.lookup k).isSome then collectLeftovers req opt rest acc
    else collectLeftovers req opt rest (jsInsert acc k val)

theorem entriesLoop_ok_iff (req opt : List (String × Matcher))
    (hst : ∀ p ∈ opt, Stable p.2) (oe : List (String × Value)) (log : Log)
    (acc : List (String × Value)) :
    (∃ l lf, entriesLoop req opt oe log acc = .ok (true, l, lf)) ↔
      ∀ q ∈ oe, ∀ m, opt.lookup q.1 = some m → accepts m q.2 := by
  induction oe generalizing log acc with
  | nil => simp [entriesLoop]
  | cons p rest ih =>
    obtain ⟨k, val⟩ := p
    rw [entriesLoop]
    constructor
    · rintro ⟨l, lf, hl⟩ q hq
      cases hlk : opt.lookup k with
      | none =>
        rw [hlk] at hl
        dsimp only at hl
        rcases List.mem_cons.mp hq with rfl | hq2
        · intro m hm
          rw [hlk] at hm
          exact Option.noConfusion hm
        · by_cases hrk : (req.lookup k).isSome = true
          · rw [if_pos (by simp [hrk])] at hl
            exact (ih log acc).mp ⟨l, lf, hl⟩ q hq2
          · rw [if_neg (by simp at hrk; simp [hrk])] at hl
            exact (ih log (jsInsert acc k val)).mp ⟨l, lf, hl⟩ q hq2
      | some m =>
        have hm : Stable m := hst (k, m) (mem_of_lookup hlk)
        rw [hlk] at hl
        dsimp only at hl
        rw [hm val log] at hl
        cases hx : m val [] with
        | error e => rw [hx] at hl; exact Except.noConfusion hl
        | ok q2 =>
          obtain ⟨b, d⟩ := q2
          cases b
          · rw [hx] at hl
            simp [extendRes] at hl
          · rcases List.mem_cons.mp hq with rfl | hq2
            · intro m2 hm2
              rw [hlk] at hm2
              cases hm2
              exact ⟨d, hx⟩
            · rw [hx] at hl
              simp only [extendRes_ok] at hl
              exact (ih (log ++ d) acc).mp ⟨l, lf, hl⟩ q hq2
    · intro hall
      cases hlk : opt.lookup k with
      | none =>
        dsimp only
        by_cases hrk : (req.lookup k).isSome = true
        · rw [if_pos (by simp [hrk])]
          exact (ih log acc).mpr fun q hq => hall q (by simp [hq])
        · rw [if_neg (by simp at hrk; simp [hrk])]
          exact (ih log (jsInsert acc k val)).mpr fun q hq =>
            hall q (by simp [hq])
      | some m =>
        have hm : Stable m := hst (k, m) (mem_of_lookup hlk)
        obtain ⟨d, hx⟩ := hall (k, val) (by simp) m hlk
        dsimp only
        rw [hm val log, hx, extendRes_ok]
        exact (ih (log ++ d) acc).mpr fun q hq => hall q (by simp [hq])

theorem entriesLoop_true_leftovers (req opt : List (String × Matcher))
    (oe : List (String × Value)) :
    ∀ log acc l lf, entriesLoop req opt oe log acc = .ok (true, l, lf) →
      lf = collectLeftovers req opt oe acc := by
  induction oe with
  | nil =>
    intro log acc l lf h
    rw [entriesLoop] at h
    rw [collectLeftovers]
    cases h
    rfl
  | cons p rest ih =>
    intro log acc l lf h
    obtain ⟨k, val⟩ := p
    rw [entriesLoop] at h
    rw [collectLeftovers]
    cases hlk : opt.lookup k with
    | none =>
      rw [hlk] at h
      dsimp only at h
      simp only [hlk, Option.isSome_none, Bool.false_eq_true, if_false,
        ite_false]
      by_cases hrk : (req.lookup k).isSome = true
      · rw [if_pos (by simp [hrk])] at h
        rw [if_pos hrk]
        exact ih log acc l lf h
      · rw [if_neg (by simp at hrk; simp [hrk])] at h
        rw [if_neg hrk]
        exact ih log (jsInsert acc k val) l lf h
    | some m =>
      rw [hlk] at h
      dsimp only at h
      simp only [hlk, Option.isSome_some, if_true, ite_true]
      cases hx : m val log with
      | error e => rw [hx] at h; exact Except.noConfusion h
      | ok q2 =>
        obtain ⟨b, d⟩ := q2
        cases b
        · rw [hx] at h
          simp at h
        · rw [hx] at h
          exact ih d acc l lf h

theorem jsInsert_ne_nil {α : Type} (l : List (String × α)) (k : String)
    (a : α) : jsInsert l k a ≠ [] := by
  cases l with
  | nil => simp [jsInsert]
  | cons p rest =>
    obtain ⟨k1, a1⟩ := p
    rw [jsInsert]
    by_cases hk : k1 = k <;> simp [hk]

theorem collectLeftovers_acc_ne_nil (req opt : List (String × Matcher))
    (oe : List (String × Value)) :
    ∀ acc, acc ≠ [] → collectLeftovers req opt oe acc ≠ [] := by
  induction oe with
  | nil => intro acc h; rwa [collectLeftovers]
  | cons p rest ih =>
    intro acc h
    obtain ⟨k, val⟩ := p
    rw [collectLeftovers]
    by_cases h1 : (opt.lookup k).isSome = true
    · rw [if_pos h1]; exact ih acc h
    · rw [if_neg h1]
      by_cases h2 : (req.lookup k).isSome = true
      · rw [if_pos h2]; exact ih acc h
      · rw [if_neg h2]
        exact ih _ (jsInsert_ne_nil acc k val)

theorem collectLeftovers_nil_iff (req opt : List (String × Matcher))
    (oe : List (String × Value)) :
    collectLeftovers req opt oe [] = [] ↔
      ∀ q ∈ oe, (opt.lookup q.1).isSome = true
        ∨ (req.lookup q.1).isSome = true := by
  induction oe with
  | nil => simp [collectLeftovers]
  | cons p rest ih =>
    obtain ⟨k, val⟩ := p
    rw [collectLeftovers]
    by_cases h1 : (opt.lookup k).isSome = true
    · rw [if_pos h1]
      rw [ih]
      constructor
      · intro hall q hq
        rcases List.mem_cons.mp hq with rfl | hq2
        · exact Or.inl h1
        · exact hall q hq2
      · intro hall q hq
        exact hall q (by simp [hq])
    · rw [if_neg h1]
      by_cases h2 : (req.lookup k).isSome = true
      · rw [if_pos h2]
        rw [ih]
        constructor
        · intro hall q hq
          rcases List.mem_cons.mp hq with rfl | hq2
          · exact Or.inr h2
          · exact hall q hq2
        · intro hall q hq
          exact hall q (by simp [hq])
      · rw [if_neg h2]
        constructor
        · intro hcon
          exact absurd hcon
            (collectLeftovers_acc_ne_nil req opt rest _
              (jsInsert_ne_nil [] k val))
        · intro hall
          rcases hall (k, val) (by simp) with hc | hc
          · exact absurd hc h1
          · exact absurd hc h2

theorem objectMatcher_true_iff (req opt : List (String × Matcher))
    (hstr : ∀ p ∈ req, Stable p.2) (hsto : ∀ p ∈ opt, Stable p.2)
    (mn : Nat) (mx : Option Nat) (v : Value) :
    resultOf (objectMatcher req opt mn mx v []) = some true ↔
      ∃ oe, v = .vobj oe
      ∧ (∀ p ∈ req, ∃ val, oe.lookup p.1 = some val ∧ accepts p.2 val)
      ∧ (∀ q ∈ oe, ∀ m, opt.lookup q.1 = some m → accepts m q.2)
      ∧ mn ≤ (collectLeftovers req opt oe []).length
      ∧ maxOk mx (collectLeftovers req opt oe []).length = true := by
  cases v with
  | vobj oe =>
    unfold objectMatcher
    dsimp only
    constructor
    · intro htrue
      cases hrl : requiredLoop (req.map Prod.fst) oe req [] with
      | error e => rw [hrl] at htrue; simp [resultOf] at htrue
      | ok q =>
        obtain ⟨b1, l1⟩ := q
        cases b1
        · rw [hrl] at htrue
          simp [resultOf] at htrue
        · rw [hrl] at htrue
          dsimp only at htrue
          cases hel : entriesLoop req opt oe l1 [] with
          | error e => rw [hel] at htrue; simp [resultOf] at htrue
          | ok q2 =>
            obtain ⟨b2, l2, lfts⟩ := q2
            cases b2
            · rw [hel] at htrue
              simp [resultOf] at htrue
            · rw [hel] at htrue
              dsimp only at htrue
              have hlf : lfts = collectLeftovers req opt oe [] :=
                entriesLoop_true_leftovers req opt oe l1 [] l2 lfts hel
              cases hb : (decide (lfts.length < mn) || !maxOk mx lfts.length)
                  with
              | true =>
                rw [hb] at htrue
                simp [resultOf] at htrue
              | false =>
                simp only [Bool.or_eq_false_iff, decide_eq_false_iff_not,
                  Bool.not_eq_false', Nat.not_lt] at hb
                refine ⟨oe, rfl,
                  (requiredLoop_ok_iff _ oe req hstr []).mp ⟨l1, hrl⟩,
                  (entriesLoop_ok_iff req opt hsto oe l1 []).mp
                    ⟨l2, lfts, hel⟩, ?_, ?_⟩
                · rw [← hlf]; exact hb.1
                · rw [← hlf]; exact hb.2
    · rintro ⟨oe2, heq, hreq, hopt2, hmn, hmx⟩
      obtain rfl : oe = oe2 := by injection heq
      obtain ⟨l1, hrl⟩ := (requiredLoop_ok_iff (req.map Prod.fst) oe req
        hstr []).mpr hreq
      obtain ⟨l2, lfts, hel⟩ :=
        (entriesLoop_ok_iff req opt hsto oe l1 []).mpr hopt2
      have hlf : lfts = collectLeftovers req opt oe [] :=
        entriesLoop_true_leftovers req opt oe l1 [] l2 lfts hel
      subst hlf
      rw [hrl]
      dsimp only
      rw [hel]
      dsimp only
      have hguard : (decide ((collectLeftovers req opt oe []).length < mn)
          || !maxOk mx (collectLeftovers req opt oe []).length) = false := by
        simp [Nat.not_lt.mpr hmn, hmx]
      rw [hguard]
      simp [resultOf]
  | vnull => simp [objectMatcher, resultOf]
  | vbool b => simp [objectMatcher, resultOf]
  | vnum n => simp [objectMatcher, resultOf]
  | vstr s => simp [objectMatcher, resultOf]
  | varr xs => simp [objectMatcher, resultOf]

theorem jsInsert_fresh {α : Type} (l : List (String × α)) (k : String)
    (a : α) (h : k ∉ l.map Prod.fst) : jsInsert l k a = l ++ [(k, a)] := by
  induction l with
  | nil => simp [jsInsert]
  | cons p rest ih =>
    obtain ⟨k1, a1⟩ := p
    simp only [List.map, List.mem_cons, not_or] at h
    rw [jsInsert, if_neg (fun he => h.1 he.symm)]
    simp [ih h.2]

theorem stripLast_inj {s t : String} (hs : endsWithQm s = true)
    (ht : endsWithQm t = true) (h : stripLast s = stripLast t) : s = t := by
  unfold endsWithQm at hs ht
  unfold stripLast at h
  have hsd : s.data.dropLast = t.data.dropLast := by
    have := congrArg String.data h
    simpa using this
  cases hsl : s.data.getLast? with
  | none => rw [hsl] at hs; simp at hs
  | some c =>
    rw [hsl] at hs
    simp at hs
    cases htl : t.data.getLast? with
    | none => rw [htl] at ht; simp at ht
    | some c2 =>
      rw [htl] at ht
      simp at ht
      have hs0 : s.data ≠ [] := by
        intro hh
        rw [hh] at hsl
        simp at hsl
      have ht0 : t.data ≠ [] := by
        intro hh
        rw [hh] at htl
        simp at htl
      have hseq : s.data = s.data.dropLast ++ [s.data.getLast hs0] :=
        (List.dropLast_append_getLast hs0).symm
      have hteq : t.data = t.data.dropLast ++ [t.data.getLast ht0] :=
        (List.dropLast_append_getLast ht0).symm
      have hgs : s.data.getLast hs0 = c := by
        have := List.getLast?_eq_getLast s.data hs0
        rw [hsl] at this
        exact (Option.some_inj.mp this).symm
      have hgt : t.data.getLast ht0 = c2 := by
        have := List.getLast?_eq_getLast t.data ht0
        rw [htl] at this
        exact (Option.some_inj.mp this).symm
    -- s.data = dropLast ++ ['?'] = t.data
      have : s.data = t.data := by
        rw [hseq, hteq, hgs, hgt, hs, ht, hsd]
      cases s
      cases t
      exact congrArg String.mk (by simpa using this)

/-- The keys not marked optional, with their sub-patterns. -/
def requiredEntries (es : List (String × Schema)) : List (String × Schema) :=
  es.filter (fun p => !endsWithQm p.1)

/-- The keys marked optional, under their stripped names. -/
def optionalEntries (es : List (String × Schema)) : List (String × Schema) :=
  (es.filter (fun p => endsWithQm p.1)).map (fun p => (stripLast p.1, p.2))

/-- The required dictionary that `buildDicts` computes, as a filter, and
the optional dictionary as a filter-and-strip, valid when the raw keys are
distinct (always the case for a pattern that came from a JavaScript object
literal). -/
theorem buildDicts_eq (kms : List (String × Matcher))
    (hnd : (kms.map Prod.fst).Nodup) :
    ∀ req opt,
    (∀ p ∈ kms, endsWithQm p.1 = false → p.1 ∉ req.map Prod.fst) →
    (∀ p ∈ kms, endsWithQm p.1 = true →
      stripLast p.1 ∉ opt.map Prod.fst) →
    buildDicts kms req opt =
      (req ++ kms.filter (fun p => !endsWithQm p.1),
       opt ++ (kms.filter (fun p => endsWithQm p.1)).map
         (fun p => (stripLast p.1, p.2))) := by
  induction kms with
  | nil => intro req opt _ _; simp [buildDicts]
  | cons p rest ih =>
    intro req opt hfr hfo
    obtain ⟨k, m⟩ := p
    simp only [List.map, List.nodup_cons] at hnd
    rw [buildDicts]
    by_cases hq : endsWithQm k = true
    · rw [if_pos hq]
      have hfresh : stripLast k ∉ opt.map Prod.fst :=
        hfo (k, m) (by simp) hq
      rw [jsInsert_fresh opt (stripLast k) m hfresh]
      rw [ih hnd.2 req (opt ++ [(stripLast k, m)])
        (fun p2 hp2 he => hfr p2 (by simp [hp2]) he)
        ?_]
      · simp [hq, List.filter, List.append_assoc]
      · intro p2 hp2 he2
        simp only [List.map_append, List.mem_append, not_or]
        refine ⟨hfo p2 (by simp [hp2]) he2, ?_⟩
        simp only [List.map, List.mem_singleton]
        intro hc
        have : p2.1 = k := stripLast_inj he2 hq hc
        exact hnd.1 (this ▸ List.mem_map_of_mem Prod.fst hp2)
    · rw [if_neg hq]
      have hq2 : endsWithQm k = false := by
        cases he : endsWithQm k
        · rfl
        · exact absurd he hq
      have hfresh : k ∉ req.map Prod.fst := hfr (k, m) (by simp) hq2
      rw [jsInsert_fresh req k m hfresh]
      rw [ih hnd.2 (req ++ [(k, m)]) opt ?_
        (fun p2 hp2 he => hfo p2 (by simp [hp2]) he)]
      · simp [hq2, List.filter, List.append_assoc]
      · intro p2 hp2 he2
        simp only [List.map_append, List.mem_append, not_or]
        refine ⟨hfr p2 (by simp [hp2]) he2, ?_⟩
        simp only [List.map, List.mem_singleton]
        intro hc
        exact hnd.1 (hc ▸ List.mem_map_of_mem Prod.fst hp2)

theorem forall₂_forall_iff {α β : Type} {R : α → β → Prop} {P : β → Prop}
    {Q : α → Prop} :
    ∀ {as : List α} {bs : List β}, List.Forall₂ R as bs →
    (∀ a b, R a b → (P b ↔ Q a)) →
    ((∀ b ∈ bs, P b) ↔ ∀ a ∈ as, Q a) := by
  intro as bs h hPQ
  induction h with
  | nil => simp
  | cons hab _ ih =>
    simp only [List.mem_cons, forall_eq_or_imp]
    rw [ih, hPQ _ _ hab]

theorem forall₂_keys_eq {es : List (String × Schema)}
    {kms : List (String × Matcher)}
    (h : List.Forall₂ (fun e p => e.1 = p.1 ∧ validatorImpl e.2 = .ok p.2)
      es kms) : es.map Prod.fst = kms.map Prod.fst := by
  induction h with
  | nil => rfl
  | cons hab _ ih => simp [hab.1, ih]

theorem forall₂_filter_keys {es : List (String × Schema)}
    {kms : List (String × Matcher)} (f : String → Bool)
    (h : List.Forall₂ (fun e p => e.1 = p.1 ∧ validatorImpl e.2 = .ok p.2)
      es kms) :
    List.Forall₂ (fun e p => e.1 = p.1 ∧ validatorImpl e.2 = .ok p.2)
      (es.filter (fun p => f p.1)) (kms.filter (fun p => f p.1)) := by
  induction h with
  | nil => simp [List.filter]
  | cons hab hrest ih =>
    rename_i a b as bs
    rw [List.filter, List.filter, hab.1]
    cases f b.1 with
    | false => simpa using ih
    | true =>
      dsimp only
      exact List.Forall₂.cons hab ih

theorem forall₂_strip {es : List (String × Schema)}
    {kms : List (String × Matcher)}
    (h : List.Forall₂ (fun e p => e.1 = p.1 ∧ validatorImpl e.2 = .ok p.2)
      es kms) :
    List.Forall₂ (fun e p => e.1 = p.1 ∧ validatorImpl e.2 = .ok p.2)
      (es.map (fun p => (stripLast p.1, p.2)))
      (kms.map (fun p => (stripLast p.1, p.2))) := by
  induction h with
  | nil => simp
  | cons hab _ ih =>
    simp only [List.map]
    exact List.Forall₂.cons ⟨by simp [hab.1], hab.2⟩ ih

theorem lookup_eq_some_iff_mem {α : Type} {l : List (String × α)}
    (hnd : (l.map Prod.fst).Nodup) (k : String) (a : α) :
    l.lookup k = some a ↔ (k, a) ∈ l := by
  constructor
  · exact mem_of_lookup
  · intro hmem
    induction l with
    | nil => cases hmem
    | cons p rest ih =>
      obtain ⟨k1, a1⟩ := p
      simp only [List.map, List.nodup_cons] at hnd
      rw [List.lookup]
      rcases List.mem_cons.mp hmem with heq | hmem2
      · cases heq
        simp
      · have hne : ¬(k == k1) = true := by
          simp only [beq_iff_eq]
          intro hc
          subst hc
          exact hnd.1 (List.mem_map_of_mem Prod.fst hmem2)
        simp only [hne, Bool.false_eq_true, if_false, ite_false]
        exact ih hnd.2 hmem2

theorem schemaAccepts_iff {s : Schema} {m : Matcher}
    (h : validatorImpl s = .ok m) (val : Value) :
    schemaAccepts s val ↔ accepts m val := by
  constructor
  · rintro ⟨m2, hm2, hacc⟩
    rw [h] at hm2
    cases hm2
    exact hacc
  · intro hacc
    exact ⟨m, h, hacc⟩

theorem lookup_isSome_iff {α : Type} (l : List (String × α)) (k : String) :
    (l.lookup k).isSome = true ↔ k ∈ l.map Prod.fst := by
  induction l with
  | nil => simp [List.lookup]
  | cons p rest ih =>
    obtain ⟨k1, a1⟩ := p
    rw [List.lookup]
    by_cases hk : (k == k1) = true
    · have : k = k1 := by simpa using hk
      simp [hk, this]
    · have : ¬k = k1 := by simpa using hk
      simp [hk, this, ih]

theorem optF_keys_nodup (kms : List (String × Matcher))
    (hndk : (kms.map Prod.fst).Nodup) :
    (((kms.filter (fun p => endsWithQm p.1)).map
      (fun p => (stripLast p.1, p.2))).map Prod.fst).Nodup := by
  have h1 : ((kms.filter (fun p => endsWithQm p.1)).map
      (fun p => (stripLast p.1, p.2))).map Prod.fst
      = ((kms.filter (fun p => endsWithQm p.1)).map Prod.fst).map
        stripLast := by
    simp [List.map_map, Function.comp]
  rw [h1]
  have hsub : ((kms.filter (fun p => endsWithQm p.1)).map Prod.fst).Nodup :=
    ((List.filter_sublist kms).map Prod.fst).nodup hndk
  refine List.Nodup.map_on ?_ hsub
  intro x hx y hy hxy
  obtain ⟨p, hp, rfl⟩ := List.mem_map.mp hx
  obtain ⟨p2, hp2, rfl⟩ := List.mem_map.mp hy
  exact stripLast_inj (List.mem_filter.mp hp).2 (List.mem_filter.mp hp2).2 hxy

/-- Claim C6: a FixedMapping pattern (object pattern with no trailing
quantifier) matches a candidate if and only if the candidate is a mapping,
every required key is present with a value accepted by its sub-pattern,
every present optional key's value is accepted by its sub-pattern, and every
candidate key appears in the pattern (zero leftovers: the implied quantifier
bound is {0,0}). -/
theorem tisch_c6 (entries : List (String × Schema)) (v : Value)
    (M : Matcher) (hnf : noFunEntries entries = true)
    (hnd : (entries.map Prod.fst).Nodup)
    (hok : validatorImpl (.obj entries none) = .ok M) :
    resultOf (M v []) = some true ↔
      ∃ oe, v = .vobj oe
      ∧ (∀ p ∈ requiredEntries entries,
          ∃ val, oe.lookup p.1 = some val ∧ schemaAccepts p.2 val)
      ∧ (∀ q ∈ oe, ∀ p ∈ optionalEntries entries, p.1 = q.1 →
          schemaAccepts p.2 q.2)
      ∧ (∀ q ∈ oe, q.1 ∈ (requiredEntries entries).map Prod.fst
          ∨ q.1 ∈ (optionalEntries entries).map Prod.fst) := by
  rw [validatorImpl] at hok
  cases hc : compileEntries entries with
  | error e =>
    rw [hc, except_bind_error] at hok
    exact Except.noConfusion hok
  | ok kms =>
    rw [hc, except_bind_ok] at hok
    cases hok
    have hF := compileEntries_spec hc
    have hkeys := forall₂_keys_eq hF
    have hndk : (kms.map Prod.fst).Nodup := hkeys ▸ hnd
    have hdicts := buildDicts_eq kms hndk [] [] (by simp) (by simp)
    have hkst : ∀ p ∈ kms, Stable p.2 :=
      (stable_triple (sizeOf entries)).2.2 entries le_rfl hnf kms hc
    have hstd := stable_buildDicts kms [] [] hkst (by simp) (by simp)
    rw [hdicts] at hstd
    simp only [List.nil_append] at hstd hdicts
    rw [hdicts]
    dsimp only [objQuant]
    rw [objectMatcher_true_iff _ _ hstd.1 hstd.2 0 (some 0) v]
    have hFreq := forall₂_filter_keys (fun k => !endsWithQm k) hF
    have hFopt := forall₂_strip (forall₂_filter_keys (fun k => endsWithQm k) hF)
    refine exists_congr fun oe => and_congr_right fun _ => ?_
    have hA : (∀ p ∈ kms.filter (fun p => !endsWithQm p.1),
        ∃ val, oe.lookup p.1 = some val ∧ accepts p.2 val) ↔
        ∀ p ∈ requiredEntries entries,
          ∃ val, oe.lookup p.1 = some val ∧ schemaAccepts p.2 val := by
      refine forall₂_forall_iff hFreq fun a b hab => ?_
      rw [hab.1]
      exact exists_congr fun val => and_congr_right fun _ =>
        (schemaAccepts_iff hab.2 val).symm
    have hndopt := optF_keys_nodup kms hndk
    have hB : (∀ q ∈ oe, ∀ m,
        ((kms.filter (fun p => endsWithQm p.1)).map
          (fun p => (stripLast p.1, p.2))).lookup q.1 = some m →
          accepts m q.2) ↔
        ∀ q ∈ oe, ∀ p ∈ optionalEntries entries, p.1 = q.1 →
          schemaAccepts p.2 q.2 := by
      refine forall_congr' fun q => imp_congr_right fun _ => ?_
      have hstep1 : (∀ m,
          ((kms.filter (fun p => endsWithQm p.1)).map
            (fun p => (stripLast p.1, p.2))).lookup q.1 = some m →
            accepts m q.2) ↔
          ∀ b ∈ (kms.filter (fun p => endsWithQm p.1)).map
            (fun p => (stripLast p.1, p.2)), b.1 = q.1 →
            accepts b.2 q.2 := by
        constructor
        · intro h b hb hbk
          refine h b.2 ?_
          rw [← hbk]
          exact (lookup_eq_some_iff_mem hndopt b.1 b.2).mpr hb
        · intro h m hm
          have hmem := mem_of_lookup hm
          exact h (q.1, m) hmem rfl
      rw [hstep1]
      refine forall₂_forall_iff hFopt fun a b hab => ?_
      rw [hab.1]
      exact imp_congr_right fun _ => (schemaAccepts_iff hab.2 q.2).symm
    have hC : (0 ≤ (collectLeftovers
          (kms.filter (fun p => !endsWithQm p.1))
          ((kms.filter (fun p => endsWithQm p.1)).map
            (fun p => (stripLast p.1, p.2))) oe []).length
        ∧ maxOk (some 0) (collectLeftovers
          (kms.filter (fun p => !endsWithQm p.1))
          ((kms.filter (fun p => endsWithQm p.1)).map
            (fun p => (stripLast p.1, p.2))) oe []).length = true) ↔
        ∀ q ∈ oe, q.1 ∈ (requiredEntries entries).map Prod.fst
          ∨ q.1 ∈ (optionalEntries entries).map Prod.fst := by
      have hz : ∀ n : Nat, (0 ≤ n ∧ maxOk (some 0) n = true) ↔ n = 0 := by
        intro n
        simp [maxOk, Nat.le_zero]
      rw [hz]
      rw [List.length_eq_zero]
      rw [collectLeftovers_nil_iff]
      refine forall_congr' fun q => imp_congr_right fun _ => ?_
      rw [lookup_isSome_iff, lookup_isSome_iff]
      have hreqkeys : (kms.filter (fun p => !endsWithQm p.1)).map Prod.fst
          = (requiredEntries entries).map Prod.fst :=
        (forall₂_keys_eq hFreq).symm
      have hoptkeys : ((kms.filter (fun p => endsWithQm p.1)).map
            (fun p => (stripLast p.1, p.2))).map Prod.fst
          = (optionalEntries entries).map Prod.fst :=
        (forall₂_keys_eq hFopt).symm
      rw [hreqkeys, hoptkeys]
      exact or_comm
    rw [hA, hB, hC]

theorem fixedArrayMatcher_true_iff (vs : List Matcher)
    (hst : ∀ m ∈ vs, Stable m) (v : Value) (log : Log) :
    (∃ l, fixedArrayMatcher vs v log = .ok (true, l)) ↔
      ∃ xs, v = .varr xs ∧ xs.length = vs.length
        ∧ ∀ p ∈ vs.zip xs, accepts p.1 p.2 := by
  cases v with
  | varr xs =>
    unfold fixedArrayMatcher
    dsimp only
    by_cases hlen : xs.length = vs.length
    · rw [if_neg (by simp [hlen])]
      have hpairs : ∀ p ∈ vs.zip xs, Stable p.1 := by
        intro p hp
        exact hst p.1 (List.of_mem_zip hp).1
      constructor
      · rintro ⟨l, hl⟩
        refine ⟨xs, rfl, hlen, ?_⟩
        cases hrp : runPairs (vs.zip xs) log with
        | error e => rw [hrp] at hl; exact Except.noConfusion hl
        | ok q =>
          obtain ⟨b, d⟩ := q
          cases b
          · rw [hrp] at hl
            simp at hl
          · exact (runPairs_ok_iff (vs.zip xs) hpairs log).mp ⟨d, hrp⟩
      · rintro ⟨xs2, heq, _, hall⟩
        obtain rfl : xs = xs2 := by injection heq
        obtain ⟨l, hl⟩ := (runPairs_ok_iff (vs.zip xs) hpairs log).mpr hall
        rw [hl]
        exact ⟨l, rfl⟩
    · rw [if_pos (by simp [hlen])]
      constructor
      · rintro ⟨l, hl⟩
        simp at hl
      · rintro ⟨xs2, heq, hlen2, _⟩
        obtain rfl : xs = xs2 := by injection heq
        exact absurd hlen2 hlen
  | vnull => simp [fixedArrayMatcher]
  | vbool b => simp [fixedArrayMatcher]
  | vnum n => simp [fixedArrayMatcher]
  | vstr s => simp [fixedArrayMatcher]
  | vobj oe => simp [fixedArrayMatcher]

theorem dynamicArrayMatcher_true_iff (fvs : List Matcher) (rep : Matcher)
    (hf : ∀ m ∈ fvs, Stable m) (hr : Stable rep) (mn : Nat) (mx : Option Nat)
    (v : Value) :
    resultOf (dynamicArrayMatcher fvs rep mn mx v []) = some true ↔
      ∃ xs, v = .varr xs
      ∧ (xs.take fvs.length).length = fvs.length
      ∧ (∀ p ∈ fvs.zip (xs.take fvs.length), accepts p.1 p.2)
      ∧ mn ≤ (xs.drop fvs.length).length
      ∧ maxOk mx (xs.drop fvs.length).length = true
      ∧ ∀ x ∈ xs.drop fvs.length, accepts rep x := by
  cases v with
  | varr xs =>
    unfold dynamicArrayMatcher
    dsimp only
    have hfx := fixedArrayMatcher_true_iff fvs hf (.varr (xs.take fvs.length)) []
    cases hfix : fixedArrayMatcher fvs (.varr (xs.take fvs.length)) [] with
    | error e =>
      rw [hfix] at hfx
      constructor
      · intro hcon
        simp [resultOf] at hcon
      · rintro ⟨xs2, heq, hlen, hpairs, _⟩
        obtain rfl : xs = xs2 := by injection heq
        obtain ⟨l, hl⟩ := hfx.mpr ⟨xs.take fvs.length, rfl, hlen, hpairs⟩
        exact Except.noConfusion hl
    | ok q =>
      obtain ⟨b, d⟩ := q
      cases b
      · rw [hfix] at hfx
        constructor
        · intro hcon
          simp [resultOf] at hcon
        · rintro ⟨xs2, heq, hlen, hpairs, _⟩
          obtain rfl : xs = xs2 := by injection heq
          obtain ⟨l, hl⟩ := hfx.mpr ⟨xs.take fvs.length, rfl, hlen, hpairs⟩
          simp at hl
      · rw [hfix] at hfx
        cases hb : (decide ((xs.drop fvs.length).length < mn)
            || !maxOk mx (xs.drop fvs.length).length) with
        | true =>
          simp only [hb, if_true, ite_true]
          constructor
          · intro hcon
            simp [resultOf] at hcon
          · rintro ⟨xs2, heq, _, _, hmn, hmx, _⟩
            obtain rfl : xs = xs2 := by injection heq
            rw [Bool.or_eq_true] at hb
            rcases hb with hb | hb
            · exact absurd (by simpa using hb) (Nat.not_lt.mpr hmn)
            · rw [hmx] at hb
              simp at hb
        | false =>
          simp only [hb, Bool.false_eq_true, if_false, ite_false]
          simp only [Bool.or_eq_false_iff, decide_eq_false_iff_not,
            Bool.not_eq_false', Nat.not_lt] at hb
          have hre := runEvery_ok_iff hr (xs.drop fvs.length) d
          cases hrev : runEvery rep (xs.drop fvs.length) d with
          | error e =>
            rw [hrev] at hre
            constructor
            · intro hcon
              simp [resultOf] at hcon
            · rintro ⟨xs2, heq, _, _, _, _, hall⟩
              obtain rfl : xs = xs2 := by injection heq
              obtain ⟨l, hl⟩ := hre.mpr hall
              exact Except.noConfusion hl
          | ok q2 =>
            obtain ⟨b2, d2⟩ := q2
            cases b2
            · rw [hrev] at hre
              constructor
              · intro hcon
                simp [resultOf] at hcon
              · rintro ⟨xs2, heq, _, _, _, _, hall⟩
                obtain rfl : xs = xs2 := by injection heq
                obtain ⟨l, hl⟩ := hre.mpr hall
                simp at hl
            · rw [hrev] at hre
              obtain ⟨xs2, heq2, hlen2, hp2⟩ := hfx.mp ⟨d, rfl⟩
              obtain rfl : xs.take fvs.length = xs2 := by injection heq2
              constructor
              · intro _
                exact ⟨xs, rfl, hlen2, hp2, hb.1, hb.2, hre.mp ⟨d2, rfl⟩⟩
              · intro _
                simp [resultOf]
  | vnull => simp [dynamicArrayMatcher, resultOf]
  | vbool b => simp [dynamicArrayMatcher, resultOf]
  | vnum n => simp [dynamicArrayMatcher, resultOf]
  | vstr s => simp [dynamicArrayMatcher, resultOf]
  | vobj oe => simp [dynamicArrayMatcher, resultOf]

theorem zip_take_self {α β : Type} (vs : List α) (xs : List β) :
    vs.zip (xs.take vs.length) = vs.zip xs := by
  induction vs generalizing xs with
  | nil => simp
  | cons v rest ih =>
    cases xs with
    | nil => simp
    | cons x xt => simp [List.zip_cons_cons, ih]

theorem forall₂_zip_accepts {fixedPats : List Schema} {fvs : List Matcher}
    (h : List.Forall₂ (fun s m => validatorImpl s = .ok m) fixedPats fvs) :
    ∀ xs : List Value,
    (∀ p ∈ fvs.zip xs, accepts p.1 p.2) ↔
      ∀ p ∈ fixedPats.zip xs, schemaAccepts p.1 p.2 := by
  induction h with
  | nil => simp
  | cons hab hrest ih =>
    intro xs
    cases xs with
    | nil => simp
    | cons x xt =>
      simp only [List.zip_cons_cons, List.mem_cons, forall_eq_or_imp]
      rw [ih xt]
      constructor
      · rintro ⟨h1, h2⟩
        exact ⟨(schemaAccepts_iff hab x).mpr h1, h2⟩
      · rintro ⟨h1, h2⟩
        exact ⟨(schemaAccepts_iff hab x).mp h1, h2⟩

theorem getLast?_append_pair (l : List Schema) (a b : Schema) :
    (l ++ [a, b]).getLast? = some b := by
  have : l ++ [a, b] = (l ++ [a]) ++ [b] := by simp
  rw [this, List.getLast?_concat]

theorem compileAll_mem_exists {ss : List Schema} {ms : List Matcher}
    (hF : List.Forall₂ (fun s m => validatorImpl s = .ok m) ss ms) :
    ∀ m ∈ ms, ∃ s ∈ ss, validatorImpl s = .ok m := by
  induction hF with
  | nil => intro m hm; cases hm
  | cons hab hrest ih =>
    intro m hm
    rcases List.mem_cons.mp hm with rfl | hm2
    · exact ⟨_, by simp, hab⟩
    · obtain ⟨s, hs, hsm⟩ := ih _ hm2
      exact ⟨s, by simp [hs], hsm⟩

/-- Claim C7: a VariadicSequence pattern (fixed sub-patterns, a repeatable
sub-pattern, quantifier {min,max}) accepts a candidate if and only if the
candidate is a sequence splitting into a prefix of the fixed arity whose
elements are accepted element-wise by the fixed sub-patterns and a remainder
with min ≤ length ≤ max all of whose elements are accepted by the repeatable
sub-pattern. -/
theorem tisch_c7 (fixedPats : List Schema) (rep : Schema) (mn : Nat)
    (mx : Option Nat) (v : Value) (M : Matcher)
    (hnff : noFunList fixedPats = true) (hnfr : noFun rep = true)
    (hok : validatorImpl (.arr (fixedPats ++ [rep, .etcMarker mn mx]))
      = .ok M) :
    resultOf (M v []) = some true ↔
      ∃ xs, v = .varr xs
      ∧ fixedPats.length ≤ xs.length
      ∧ (∀ p ∈ fixedPats.zip xs, schemaAccepts p.1 p.2)
      ∧ mn ≤ xs.length - fixedPats.length
      ∧ maxOk mx (xs.length - fixedPats.length) = true
      ∧ ∀ x ∈ xs.drop fixedPats.length, schemaAccepts rep x := by
  rw [validatorImpl] at hok
  have hlen : (fixedPats ++ [rep, .etcMarker mn mx]).length
      = fixedPats.length + 2 := by simp
  rw [if_neg (by omega)] at hok
  rw [getLast?_append_pair] at hok
  dsimp only at hok
  rw [if_pos (by rfl : isEtc (.etcMarker mn mx) = true)] at hok
  have hsub : (fixedPats ++ [rep, .etcMarker mn mx]).length - 2
      = fixedPats.length := by omega
  have hdrop : ((fixedPats ++ [rep, .etcMarker mn mx]).drop
      ((fixedPats ++ [rep, .etcMarker mn mx]).length - 2)).head?
      = some rep := by
    rw [hsub, List.drop_left]
    rfl
  rw [hdrop] at hok
  dsimp only at hok
  have htake : (fixedPats ++ [rep, .etcMarker mn mx]).take
      ((fixedPats ++ [rep, .etcMarker mn mx]).length - 2) = fixedPats := by
    rw [hsub, List.take_left]
  rw [htake] at hok
  by_cases hfx : fixedPats.any isEtc
  · rw [if_pos (by simp [hfx])] at hok
    exact Except.noConfusion hok
  · have hfx2 : fixedPats.any isEtc = false := by simpa using hfx
    rw [if_neg (by simp [hfx2])] at hok
    cases hc : compileAll fixedPats with
    | error e =>
      rw [hc, except_bind_error] at hok
      exact Except.noConfusion hok
    | ok fvs =>
      rw [hc, except_bind_ok] at hok
      cases h2 : validatorImpl rep with
      | error e =>
        rw [h2, except_bind_error] at hok
        exact Except.noConfusion hok
      | ok rv =>
        rw [h2, except_bind_ok] at hok
        cases hok
        have hF := compileAll_spec hc
        have hflen : fixedPats.length = fvs.length := hF.length_eq
        have hfst : ∀ m ∈ fvs, Stable m := by
          intro m hm
          obtain ⟨s, hs, hsm⟩ := compileAll_mem_exists hF m hm
          exact stable_of_noFun (noFunList_iff.mp hnff s hs) hsm
        have hrst : Stable rv := stable_of_noFun hnfr h2
        rw [dynamicArrayMatcher_true_iff fvs rv hfst hrst
          (etcQuantOf (.etcMarker mn mx)).min
          (etcQuantOf (.etcMarker mn mx)).max v]
        refine exists_congr fun xs => and_congr_right fun _ => ?_
        rw [zip_take_self]
        rw [forall₂_zip_accepts hF xs]
        simp only [← schemaAccepts_iff h2]
        rw [List.length_take, List.length_drop, ← hflen]
        dsimp only [etcQuantOf]
        constructor
        · rintro ⟨h1, h3, h4, h5, h6⟩
          exact ⟨by omega, h3, h4, h5, h6⟩
        · rintro ⟨h1, h3, h4, h5, h6⟩
          exact ⟨by omega, h3, h4, h5, h6⟩

theorem runSome_first_true (pre : List Matcher) (m : Matcher)
    (post : List Matcher) (v : Value)
    (hpre : ∀ m2 ∈ pre, Stable m2 ∧ resultOf (m2 v []) = some false)
    (hm : Stable m) (hmt : resultOf (m v []) = some true) :
    ∀ log, runSome (pre ++ m :: post) v log =
      .ok (true, log ++ ((pre.map (fun m2 => deltaOf m2 v)).flatten
        ++ deltaOf m v)) := by
  induction pre with
  | nil =>
    intro log
    obtain ⟨d, hd⟩ : ∃ d, m v [] = .ok (true, d) := by
      cases hx : m v [] with
      | error e => rw [hx] at hmt; simp [resultOf] at hmt
      | ok q =>
        obtain ⟨b, dd⟩ := q
        cases b
        · rw [hx] at hmt
          simp [resultOf] at hmt
        · exact ⟨dd, rfl⟩
    rw [List.nil_append, runSome, hm v log, hd, extendRes_ok]
    simp [deltaOf, hd]
  | cons m2 rest ih =>
    intro log
    have h2 := hpre m2 (by simp)
    obtain ⟨d2, hd2⟩ : ∃ d2, m2 v [] = .ok (false, d2) := by
      cases hx : m2 v [] with
      | error e => rw [hx] at h2; simp [resultOf] at h2
      | ok q =>
        obtain ⟨b, dd⟩ := q
        cases b
        · exact ⟨dd, rfl⟩
        · rw [hx] at h2
          simp [resultOf] at h2
    rw [List.cons_append, runSome, h2.1 v log, hd2, extendRes_ok]
    dsimp only
    rw [ih (fun q hq => hpre q (by simp [hq])) (log ++ d2)]
    simp [deltaOf, hd2, List.append_assoc]

theorem requiredLoop_first_missing (reqKeys : List String)
    (oe : List (String × Value)) (pre : List (String × Matcher)) (k : String)
    (m : Matcher) (post : List (String × Matcher))
    (hpre : ∀ p ∈ pre, ∃ val, oe.lookup p.1 = some val
      ∧ ∀ l, p.2 val l = .ok (true, l))
    (hmiss : oe.lookup k = none) :
    ∀ log, requiredLoop reqKeys oe (pre ++ (k, m) :: post) log =
      .ok (false, log ++ [Diag.missingField k (.vobj oe),
                          Diag.requiredFieldsAre reqKeys]) := by
  induction pre with
  | nil =>
    intro log
    rw [List.nil_append, requiredLoop, hmiss]
  | cons p rest ih =>
    intro log
    obtain ⟨k2, m2⟩ := p
    obtain ⟨val, hval, hquiet⟩ := hpre (k2, m2) (by simp)
    rw [List.cons_append, requiredLoop, hval]
    dsimp only
    have hquiet2 : ∀ l, m2 val l = .ok (true, l) := hquiet
    rw [hquiet2 log]
    exact ih (fun q hq => hpre q (by simp [hq])) log

/-- Discriminator for the missing-required-field diagnostic. -/
def Diag.isMissingField : Diag → Bool
  | .missingField _ _ => true
  | _ => false

/-- Claim C1: union alternatives are tried in declared order and the first
alternative whose matcher returns true wins, with no further alternatives
attempted; however the diagnostics appended by the failed earlier
alternatives are NOT retracted by the union itself — they remain in the log
after the successful union match. Only the top-level wrapper clears the log
(and only when the overall verdict is true). -/
theorem tisch_c1 (alts : List Schema) (ms : List Matcher) (M : Matcher)
    (pre : List Matcher) (m : Matcher) (post : List Matcher) (v : Value)
    (log : Log)
    (hnf : noFunList alts = true)
    (hcomp : compileAll alts = .ok ms)
    (hM : validatorImpl (.orS alts) = .ok M)
    (hsplit : ms = pre ++ m :: post)
    (hpre : ∀ m2 ∈ pre, resultOf (m2 v []) = some false)
    (hmt : resultOf (m v []) = some true) :
    M v log = .ok (true, log ++ ((pre.map (fun m2 => deltaOf m2 v)).flatten
      ++ deltaOf m v))
    ∧ wrappedValidate M v log = .ok (true, []) := by
  rw [validatorImpl] at hM
  rw [hcomp, except_bind_ok] at hM
  subst hsplit
  have hstab : ∀ m2 ∈ pre ++ m :: post, Stable m2 :=
    (stable_triple (sizeOf alts)).2.1 alts le_rfl hnf _ hcomp
  have hne : (pre ++ m :: post).isEmpty = false := by
    cases pre <;> rfl
  rw [if_neg (by simp [hne])] at hM
  cases hM
  have hpre2 : ∀ m2 ∈ pre, Stable m2 ∧ resultOf (m2 v []) = some false :=
    fun m2 hm2 => ⟨hstab m2 (by simp [hm2]), hpre m2 hm2⟩
  have hmst : Stable m := hstab m (by simp)
  have h1 := runSome_first_true pre m post v hpre2 hmst hmt
  constructor
  · unfold orMatcher
    rw [h1 log]
  · unfold wrappedValidate orMatcher
    rw [h1 []]

/-- Claim C5: required-key evaluation short-circuits at the first missing
required key (List.every in the source stops at the first false), so the
log receives exactly one missing-key diagnostic plus the required-key-list
diagnostic — not one diagnostic per missing key. Required-key checks do run
before optional/leftover accounting. -/
theorem tisch_c5 (req opt : List (String × Matcher)) (mn : Nat)
    (mx : Option Nat) (pre post : List (String × Matcher)) (k : String)
    (m : Matcher) (oe : List (String × Value)) (log : Log)
    (hsplit : req = pre ++ (k, m) :: post)
    (hpre : ∀ p ∈ pre, ∃ val, oe.lookup p.1 = some val
      ∧ ∀ l, p.2 val l = .ok (true, l))
    (hmiss : oe.lookup k = none) :
    objectMatcher req opt mn mx (.vobj oe) log =
      .ok (false, log ++ [Diag.missingField k (.vobj oe),
        Diag.requiredFieldsAre ((pre ++ (k, m) :: post).map Prod.fst)]) := by
  subst hsplit
  unfold objectMatcher
  dsimp only
  rw [requiredLoop_first_missing _ oe pre k m post hpre hmiss log]

/-- Claim C8: the top-level wrapper ignores (clears) whatever log is carried
in from before the call, clears the log again after a true verdict, returns
the untouched verdict and diagnostics of the root matcher on a false
verdict, propagates a thrown error unchanged, and enforce returns the value
itself on true and fails carrying the log (the thrown Error message) on
false or on a thrown match-time error. -/
theorem tisch_c8 (impl : Matcher) (v : Value) (prev prev2 : Log) :
    wrappedValidate impl v prev = wrappedValidate impl v prev2
    ∧ (∀ b l, wrappedValidate impl v prev = .ok (b, l) → b = true → l = [])
    ∧ (∀ b l1, impl v [] = .ok (b, l1) →
        wrappedValidate impl v prev = .ok (b, if b then [] else l1))
    ∧ (∀ e, impl v [] = .error e → wrappedValidate impl v prev = .error e)
    ∧ (wrappedValidate impl v [] = .ok (true, []) → enforceV impl v = .ok v)
    ∧ (∀ l, wrappedValidate impl v [] = .ok (false, l) →
        enforceV impl v = .error (Sum.inr l))
    ∧ (∀ e, wrappedValidate impl v [] = .error e →
        enforceV impl v = .error (Sum.inl e)) := by
  refine ⟨rfl, ?_, ?_, ?_, ?_, ?_, ?_⟩
  · intro b l hb htrue
    subst htrue
    unfold wrappedValidate at hb
    cases hx : impl v [] with
    | error e => rw [hx] at hb; exact Except.noConfusion hb
    | ok q =>
      obtain ⟨b2, l2⟩ := q
      cases b2
      · rw [hx] at hb
        simp at hb
      · rw [hx] at hb
        simp at hb
        exact hb
  · intro b l1 hx
    unfold wrappedValidate
    rw [hx]
    cases b
    · simp
    · simp
  · intro e hx
    unfold wrappedValidate
    rw [hx]
  · intro htrue
    unfold enforceV
    rw [htrue]
  · intro l hfalse
    unfold enforceV
    rw [hfalse]
  · intro e herr
    unfold enforceV
    rw [herr]

/-- Claim C2: the self-referential pattern
S = Union(TypeTag Number, FixedMapping {"+": VariadicSequence(repeatable=S,
quantifier {0,∞})}), compiled with its recursive occurrence supplied as an
already-compiled matcher (the placeholder mechanism of the loader), yields a
matcher extensionally equal to the recursive matcher itself, and that
matcher accepts 3, accepts {"+": []}, accepts {"+": [1, {"+": [2,3]}]},
and rejects {"+": "not array"}. -/
theorem tisch_c2 :
    ∃ m, validatorImpl recursiveS = .ok m
      ∧ (∀ v log, m v log = Smatch v log)
      ∧ runWrapped recursiveS (.vnum 3) = .ok (true, [])
      ∧ runWrapped recursiveS (.vobj [("+", .varr [])]) = .ok (true, [])
      ∧ runWrapped recursiveS (.vobj [("+", .varr [.vnum 1,
          .vobj [("+", .varr [.vnum 2, .vnum 3])]])]) = .ok (true, [])
      ∧ runWrapped recursiveS (.vobj [("+", .vstr "not array")]) =
          .ok (false,
            [.typeMismatch .tNumber (.vobj [("+", .vstr "not array")]),
             .notAnArray (.vstr "not array"), .inArrayPattern,
             .atRequiredField "+",
             .orNoMatch (.vobj [("+", .vstr "not array")])]) := by
  refine ⟨orMatcher [typeValidator .tNumber,
      objectMatcher [("+", dynamicArrayMatcher [] Smatch 0 none)] []
        0 (some 0)],
    validatorImpl_recursiveS,
    fun v log => (smatch_eq_compiled v log).symm, ?_, ?_, ?_, ?_⟩
  · rw [runWrapped, validatorImpl_recursiveS]
    rfl
  · rw [runWrapped, validatorImpl_recursiveS]
    rfl
  · rw [runWrapped, validatorImpl_recursiveS]
    simp [wrappedValidate, orMatcher, runSome, objectMatcher,
      dynamicArrayMatcher, fixedArrayMatcher, runPairs, runEvery,
      requiredLoop, entriesLoop, typeValidator, typeMatches,
      literalValidator, maxOk, List.lookup, jsInsert, List.map, Smatch,
      SmatchObj, SmatchArr, SmatchList, plusLeftovers]
  · rw [runWrapped, validatorImpl_recursiveS]
    rfl

/-- Claim C3: contrary to the claim, a wildcard-mapping pattern with an
explicit sibling key does NOT raise a compile-time error: the source tests
schema.length, which is undefined on a plain object, so the sibling-key
check never fires; compilation succeeds and the sibling entry is silently
ignored at match time. The error is only raised when the object carries a
truthy "length" property of its own. -/
theorem tisch_c3 :
    (validatorImpl (.anyObj (.typeTag .tNumber) none
      [("foo", .lit (.pnum 1))])).isOk = true
    ∧ runSchema (.anyObj (.typeTag .tNumber) none [("foo", .lit (.pnum 1))])
        (.vobj [("x", .vnum 5)]) = .ok (true, [])
    ∧ validatorImpl (.anyObj (.typeTag .tNumber) none
        [("length", .lit (.pnum 1))]) = .error wildcardSiblingMsg := by
  refine ⟨?_, ?_, ?_⟩
  · simp only [validatorImpl]
    rfl
  · simp [runSchema, validatorImpl, wildcardMatcher, jsKeysCount, jsValues,
      runEvery, typeValidator, typeMatches, maxOk]
    rfl
  · simp only [validatorImpl]
    rfl

/-- Claim C4: contrary to the claim, a non-mapping candidate is not always
rejected by a wildcard mapping: the matcher never checks that the candidate
is an object, so Object.keys/Object.values coercion lets an array such as
[5] satisfy {[Any]: Number}, and a null candidate makes the matcher throw a
TypeError. The entry-count quantifier and the per-value sub-pattern checks
do behave as claimed on genuine mappings: {x:1} matches, {} and
{x:1,y:2} do not. -/
theorem tisch_c4 :
    runSchema (.anyObj (.typeTag .tNumber) none []) (.varr [.vnum 5])
      = .ok (true, [])
    ∧ runSchema (.anyObj (.typeTag .tNumber) none []) .vnull =
        .error "TypeError: Cannot convert undefined or null to object"
    ∧ runSchema (.anyObj (.typeTag .tNumber) none [])
        (.vobj [("x", .vnum 1)]) = .ok (true, [])
    ∧ resultOf (runSchema (.anyObj (.typeTag .tNumber) none []) (.vobj []))
        = some false
    ∧ resultOf (runSchema (.anyObj (.typeTag .tNumber) none [])
        (.vobj [("x", .vnum 1), ("y", .vnum 2)])) = some false := by
  refine ⟨?_, ?_, ?_, ?_, ?_⟩
  · simp [runSchema, validatorImpl, wildcardMatcher, jsKeysCount, jsValues,
      runEvery, typeValidator, typeMatches, maxOk]
    rfl
  · simp only [runSchema, validatorImpl]
    rfl
  · simp [runSchema, validatorImpl, wildcardMatcher, jsKeysCount, jsValues,
      runEvery, typeValidator, typeMatches, maxOk]
    rfl
  · simp only [runSchema, validatorImpl]
    rfl
  · simp only [runSchema, validatorImpl]
    rfl

/-- Claim C10: a schema value that is already a compiled validator function
is returned by the compiler unchanged, as the compiled matcher itself
(identity), without re-wrapping or re-compilation. -/
theorem tisch_c10 (f : Matcher) :
    validatorImpl (.precompiled f) = .ok f := by
  rw [validatorImpl]

/-- A successful union leaves residual diagnostics: matching the sequence
pattern [Union(Literal "a", TypeTag Number), Literal "b"] against [1, "c"]
fails on the second element, and the reported log still contains the
diagnostic of the union's failed first alternative; moreover the union
alone succeeds on 1 while leaving that diagnostic in the log. -/
theorem tisch_c1_counterexample :
    runWrapped (.arr [.orS [.lit (.pstr "a"), .typeTag .tNumber],
        .lit (.pstr "b")]) (.varr [.vnum 1, .vstr "c"]) =
      .ok (false, [.literalMismatch (.pstr "a") (.vnum 1),
                   .literalMismatch (.pstr "b") (.vstr "c"),
                   .inArrayPattern])
    ∧ runSchema (.orS [.lit (.pstr "a"), .typeTag .tNumber]) (.vnum 1) =
      .ok (true, [.literalMismatch (.pstr "a") (.vnum 1)]) := by
  constructor
  · simp [runWrapped, validatorImpl, compileAll, isEtc, wrappedValidate,
      fixedArrayMatcher, runPairs, orMatcher, runSome, literalValidator,
      primEq, typeValidator, typeMatches]
    rfl
  · simp [runSchema, validatorImpl, compileAll, orMatcher, runSome,
      literalValidator, primEq, typeValidator, typeMatches]
    rfl

/-- With two missing required keys the log carries exactly one missing-key
diagnostic (for the first), not one per missing key: required-key
evaluation short-circuits. -/
theorem tisch_c5_counterexample :
    runSchema (.obj [("a", .typeTag .tNumber), ("b", .typeTag .tNumber)]
        none) (.vobj []) =
      .ok (false, [.missingField "a" (.vobj []),
                   .requiredFieldsAre ["a", "b"]])
    ∧ ([Diag.missingField "a" (.vobj []),
        Diag.requiredFieldsAre ["a", "b"]].filter
          Diag.isMissingField).length = 1 := by
  constructor
  · simp [runSchema, validatorImpl, compileEntries, compileAll, buildDicts,
      jsInsert, objQuant, objectMatcher, requiredLoop, entriesLoop,
      typeValidator, typeMatches, maxOk, endsWithQm]
    rfl
  · rfl

/-- The top-level validator is not total: a wildcard-mapping root matcher
applied to null throws a TypeError (Object.keys on null) instead of
returning false. -/
theorem tisch_c8_counterexample :
    runWrapped (.anyObj (.typeTag .tNumber) none []) .vnull =
      .error "TypeError: Cannot convert undefined or null to object" := by
  simp only [runWrapped, validatorImpl]
  rfl

/-- Witness instantiating the C1 theorem at the union
(Literal "a" | TypeTag Number) applied to 1 with a nonempty incoming log. -/
theorem tisch_c1_witness :
    orMatcher [literalValidator (.pstr "a"), typeValidator .tNumber]
        (.vnum 1) [Diag.inWildcardPattern] =
      .ok (true, [Diag.inWildcardPattern,
                  Diag.literalMismatch (.pstr "a") (.vnum 1)])
    ∧ wrappedValidate (orMatcher [literalValidator (.pstr "a"),
        typeValidator .tNumber]) (.vnum 1) [Diag.inWildcardPattern] =
      .ok (true, []) := by
  have h := tisch_c1 [.lit (.pstr "a"), .typeTag .tNumber]
      [literalValidator (.pstr "a"), typeValidator .tNumber]
      (orMatcher [literalValidator (.pstr "a"), typeValidator .tNumber])
      [literalValidator (.pstr "a")] (typeValidator .tNumber) []
      (.vnum 1) [Diag.inWildcardPattern]
      (by simp [noFunList, noFun])
      (by simp only [compileAll, validatorImpl]; rfl)
      (by simp only [validatorImpl, compileAll]; rfl)
      rfl
      (by
        intro m2 hm2
        rcases List.mem_singleton.mp hm2 with rfl
        rfl)
      rfl
  refine ⟨?_, h.2⟩
  have h1 := h.1
  simpa [deltaOf, literalValidator, typeValidator, primEq, typeMatches]
    using h1

/-- Witness instantiating the C5 theorem: pattern {a: Number, b: Number},
candidate {a: 1, c: 1} — required key b is missing and the extra key c
would also violate the leftover bound, yet the missing-key diagnostics are
the ones reported. -/
theorem tisch_c5_witness :
    objectMatcher [("a", typeValidator .tNumber),
        ("b", typeValidator .tNumber)] [] 0 (some 0)
      (.vobj [("a", .vnum 1), ("c", .vnum 1)]) [] =
      .ok (false,
        [Diag.missingField "b" (.vobj [("a", .vnum 1), ("c", .vnum 1)]),
         Diag.requiredFieldsAre ["a", "b"]]) := by
  have h := tisch_c5 [("a", typeValidator .tNumber),
      ("b", typeValidator .tNumber)] [] 0 (some 0)
      [("a", typeValidator .tNumber)] [] "b" (typeValidator .tNumber)
      [("a", .vnum 1), ("c", .vnum 1)] []
      rfl
      (by
        intro p hp
        rcases List.mem_singleton.mp hp with rfl
        exact ⟨.vnum 1, rfl, fun l => rfl⟩)
      rfl
  simpa using h

/-- Witness instantiating the C6 characterization: {a: Number, "b?": String}
accepts {a: 1}. -/
theorem tisch_c6_witness :
    resultOf (objectMatcher [("a", typeValidator .tNumber)]
      [("b", typeValidator .tString)] 0 (some 0)
      (.vobj [("a", .vnum 1)]) []) = some true := by
  have hok : validatorImpl (.obj [("a", .typeTag .tNumber),
      ("b?", .typeTag .tString)] none) = .ok (objectMatcher
      [("a", typeValidator .tNumber)] [("b", typeValidator .tString)]
      0 (some 0)) := by
    simp only [validatorImpl, compileEntries]
    rfl
  rw [tisch_c6 [("a", .typeTag .tNumber), ("b?", .typeTag .tString)]
      (.vobj [("a", .vnum 1)]) _ (by simp [noFunEntries, noFun])
      (by simp) hok]
  have hre : requiredEntries [("a", .typeTag .tNumber),
      ("b?", .typeTag .tString)] = [("a", .typeTag .tNumber)] := rfl
  have hoe : optionalEntries [("a", .typeTag .tNumber),
      ("b?", .typeTag .tString)] = [("b", .typeTag .tString)] := rfl
  refine ⟨[("a", .vnum 1)], rfl, ?_, ?_, ?_⟩
  · intro p hp
    rw [hre] at hp
    rcases List.mem_singleton.mp hp with rfl
    exact ⟨.vnum 1, rfl, typeValidator .tNumber, by rw [validatorImpl],
      ⟨[], rfl⟩⟩
  · intro q hq p hp hkey
    rcases List.mem_singleton.mp hq with rfl
    rw [hoe] at hp
    rcases List.mem_singleton.mp hp with rfl
    simp at hkey
  · intro q hq
    rcases List.mem_singleton.mp hq with rfl
    left
    rw [hre]
    simp

/-- Witness instantiating the C7 characterization: fixed [String], repeatable
Number, quantifier {1,2} accepts ["x", 1] and rejects ["x"]. -/
theorem tisch_c7_witness :
    resultOf (dynamicArrayMatcher [typeValidator .tString]
      (typeValidator .tNumber) 1 (some 2) (.varr [.vstr "x", .vnum 1]) [])
      = some true
    ∧ ¬ resultOf (dynamicArrayMatcher [typeValidator .tString]
      (typeValidator .tNumber) 1 (some 2) (.varr [.vstr "x"]) [])
      = some true := by
  have hok : validatorImpl (.arr ([.typeTag .tString] ++ [.typeTag .tNumber,
      .etcMarker 1 (some 2)])) = .ok (dynamicArrayMatcher
      [typeValidator .tString] (typeValidator .tNumber) 1 (some 2)) := by
    simp [validatorImpl, compileAll, isEtc, etcQuantOf]
    rfl
  constructor
  · rw [tisch_c7 [.typeTag .tString] (.typeTag .tNumber) 1 (some 2)
      (.varr [.vstr "x", .vnum 1]) _ (by simp [noFunList, noFun])
      (by simp [noFun]) hok]
    refine ⟨[.vstr "x", .vnum 1], rfl, by simp, ?_, by simp, rfl, ?_⟩
    · intro p hp
      rcases List.mem_singleton.mp hp with rfl
      exact ⟨typeValidator .tString, by rw [validatorImpl], ⟨[], rfl⟩⟩
    · intro x hx
      rcases List.mem_singleton.mp hx with rfl
      exact ⟨typeValidator .tNumber, by rw [validatorImpl], ⟨[], rfl⟩⟩
  · rw [tisch_c7 [.typeTag .tString] (.typeTag .tNumber) 1 (some 2)
      (.varr [.vstr "x"]) _ (by simp [noFunList, noFun])
      (by simp [noFun]) hok]
    rintro ⟨xs, heq, _, _, hmn, _⟩
    obtain rfl : [Value.vstr "x"] = xs := by injection heq
    simp at hmn

/-- Witness instantiating the C8 theorem at the literal matcher for 1
applied to 2: validate returns false with the mismatch diagnostic and
enforce fails carrying that log. -/
theorem tisch_c8_witness :
    wrappedValidate (literalValidator (.pnum 1)) (.vnum 2)
        [Diag.inArrayPattern] =
      .ok (false, [Diag.literalMismatch (.pnum 1) (.vnum 2)])
    ∧ enforceV (literalValidator (.pnum 1)) (.vnum 2) =
      .error (Sum.inr [Diag.literalMismatch (.pnum 1) (.vnum 2)]) := by
  have h := tisch_c8 (literalValidator (.pnum 1)) (.vnum 2)
    [Diag.inArrayPattern] []
  constructor
  · have h3 := h.2.2.1 false [Diag.literalMismatch (.pnum 1) (.vnum 2)] rfl
    simpa using h3
  · exact h.2.2.2.2.2.1 [Diag.literalMismatch (.pnum 1) (.vnum 2)] rfl
